import Mathlib

/-
  Verification of the xsum exact-summation library (yafshar/xsum).

  This file contains a shallow embedding of the algorithmic core of the
  library: the small superaccumulator (chunked exact sum of binary64
  values), its carry propagation and rounding, the small+small merge used
  for MPI-style reductions, and the large superaccumulator with its
  unrolled vector-add loop and bin condensation.

  Conventions of the embedding:
  * A binary64 value is represented by its 64-bit pattern, a `Nat` below
    2 ^ 64.  The signed reinterpretation (`fpunion.intv` in the C++ code)
    is `toIvalue`.
  * C++ `int64_t` values are embedded as `Int`; every arithmetic write
    that the C++ code performs on an `int64_t` is wrapped with `w64`,
    which reduces modulo 2 ^ 64 into the interval [-2^63, 2^63), i.e.
    two's-complement wrap-around semantics (the code relies on this, see
    the design note in the README / spec about wrapping arithmetic).
  * C++ `uint64_t` values are embedded as `Nat` with explicit `% 2 ^ 64`.
  * The chunk array `xsum_schunk chunk[XSUM_SCHUNKS]` is embedded as a
    total function `ℕ → ℤ`.  Indices at and above `XSUM_SCHUNKS = 67`
    correspond to out-of-bounds accesses of the C++ array; the safety
    theorems show that under the documented invariants those indices are
    never touched (they stay 0).
  * `>>` on a signed int64 (arithmetic shift) is floor division, i.e. Lean Int division `/` for the positive divisors used here;
    `& ((1 << k) - 1)` on a signed int64 is `Int.emod` by `2 ^ k`
    (both match two's-complement semantics exactly).
-/

namespace Xsum

/-! ## Constants (from xsum.hpp) -/

def XSUM_MANTISSA_BITS : ℕ := 52
def XSUM_EXP_BITS : ℕ := 11
def XSUM_MANTISSA_MASK : ℤ := 2 ^ 52 - 1
def XSUM_EXP_MASK : ℕ := 2 ^ 11 - 1
def XSUM_EXP_BIAS : ℕ := 1023
def XSUM_SIGN_BIT : ℕ := 63
def XSUM_LOW_EXP_BITS : ℕ := 5
def XSUM_HIGH_EXP_BITS : ℕ := 6
def XSUM_SCHUNKS : ℕ := 67
def XSUM_LOW_MANTISSA_BITS : ℕ := 32
def XSUM_SMALL_CARRY_BITS : ℕ := 11
def XSUM_SMALL_CARRY_TERMS : ℤ := 2 ^ 11 - 1
def XSUM_LCOUNT_BITS : ℕ := 12
def XSUM_LCHUNKS : ℕ := 4096

/-- Two's-complement wrap-around of an integer into a signed 64-bit value:
the unique representative of `x` modulo `2 ^ 64` inside `[-2^63, 2^63)`.
Every `int64_t` arithmetic write of the C++ code is wrapped with this. -/
def w64 (x : ℤ) : ℤ := (x + 2 ^ 63) % 2 ^ 64 - 2 ^ 63

/-- Reinterpret a 64-bit pattern (a `Nat` below `2 ^ 64`) as a signed
two's-complement `int64_t` (`fpunion.intv` for a stored `uintv`). -/
def toIvalue (bits : ℕ) : ℤ := if bits < 2 ^ 63 then (bits : ℤ) else (bits : ℤ) - 2 ^ 64

/-- Reinterpret a signed `int64_t` value as its 64-bit pattern
(`fpunion.uintv` for a stored `intv`). -/
def toBits (x : ℤ) : ℕ := (x % 2 ^ 64).toNat

/-- Pointwise update of an array map (array store `a[i] = v`). -/
def upd {α : Type} (f : ℕ → α) (i : ℕ) (v : α) : ℕ → α := fun j => if j = i then v else f j

/-- Unsigned 64-bit subtraction `a - b` (wrap-around), used when the
large accumulator's vector loop backs out a speculative chunk update. -/
def sub64 (a b : ℕ) : ℕ := (a + (2 ^ 64 - b % 2 ^ 64)) % 2 ^ 64

/-! ## Small accumulator state (`struct xsum_small_accumulator`) -/

/-- `xsum_small_accumulator`: 67 signed 64-bit chunks, sticky Inf and NaN
flag words, and the count of adds still permitted before carry
propagation is mandatory. -/
structure SmallAcc where
  chunk : ℕ → ℤ
  Inf : ℤ
  NaN : ℤ
  adds_until_propagate : ℤ
  deriving Inhabited

/-- A freshly initialized (all-zero) small accumulator. -/
def smallInit : SmallAcc :=
  { chunk := fun _ => 0, Inf := 0, NaN := 0,
    adds_until_propagate := XSUM_SMALL_CARRY_TERMS }

/-- The quiet-NaN pattern produced by `u.fltv - u.fltv` when `u` holds an
infinity: IEEE-754 makes Inf - Inf an invalid operation that returns a
quiet NaN.  The concrete payload/sign of the default NaN is platform
specific; we model it by the standard positive quiet-NaN pattern.  (The
only property the code and the claims rely on is that the result is *a*
NaN, i.e. exponent field all ones and nonzero mantissa.)  This is the one
place where the embedding models a floating-point operation rather than
integer arithmetic. -/
def infMinusInf : ℤ := 0x7FF8000000000000

/-- `xsum_small::add_inf_nan` / `xsum_small_add_inf_nan`: fold an Inf or
NaN input (given as its signed bit pattern) into the sticky flags. -/
def add_inf_nan (s : SmallAcc) (ivalue : ℤ) : SmallAcc :=
  let mantissa : ℤ := ivalue % 2 ^ 52
  if mantissa = 0 then
    if s.Inf = 0 then { s with Inf := ivalue }
    else if s.Inf ≠ ivalue then { s with Inf := infMinusInf }
    else s
  else
    if s.NaN % 2 ^ 52 ≤ mantissa then { s with NaN := ivalue % 2 ^ 63 }
    else s

/-- `xsum_small::add_no_carry(xsum_flt)` / `xsum_add_no_carry`: add one
binary64 value (as its 64-bit pattern) to the chunks, assuming no carry
propagation is needed.  Finite values update `chunk[high_exp]` and
`chunk[high_exp + 1]`; zeros are ignored; Inf/NaN only update the flags. -/
def add_no_carry (s : SmallAcc) (bits : ℕ) : SmallAcc :=
  let ivalue : ℤ := toIvalue bits
  let mantissa0 : ℕ := bits % 2 ^ 52
  let exp0 : ℕ := bits / 2 ^ 52 % 2 ^ 11
  if exp0 = XSUM_EXP_MASK then
    -- Inf or NaN: just update the flags in the accumulator
    add_inf_nan s ivalue
  else if exp0 = 0 ∧ mantissa0 = 0 then
    -- a zero (positive or negative): do nothing
    s
  else
    -- normalized: OR in the implicit 1 bit at the top of the mantissa;
    -- denormalized: no implicit 1 bit, but the exponent is 1, not 0
    let mantissa : ℕ := if exp0 ≠ 0 then mantissa0 + 2 ^ 52 else mantissa0
    let exp : ℕ := if exp0 = 0 then 1 else exp0
    let low_exp : ℕ := exp % 2 ^ 5
    let high_exp : ℕ := exp / 2 ^ 5
    let low_mantissa : ℤ := ((mantissa * 2 ^ low_exp) % 2 ^ 32 : ℕ)
    let high_mantissa : ℤ := (mantissa / 2 ^ (32 - low_exp) : ℕ)
    if ivalue < 0 then
      { s with chunk :=
          (upd (upd s.chunk high_exp (w64 (s.chunk high_exp - low_mantissa)))
            (high_exp + 1) (w64 (s.chunk (high_exp + 1) - high_mantissa))) }
    else
      { s with chunk :=
          (upd (upd s.chunk high_exp (w64 (s.chunk high_exp + low_mantissa)))
            (high_exp + 1) (w64 (s.chunk (high_exp + 1) + high_mantissa))) }

/-! ## Carry propagation (`xsum_small::carry_propagate` / `xsum_carry_propagate`) -/

/-- Initial scan of carry propagation: largest index `j ≤ i` with
`ch j ≠ 0`.  (The source performs this scan with a `switch` on
`XSUM_SCHUNKS & 3` plus a four-chunks-at-a-time descent followed by a
linear descent; the result is exactly the topmost nonzero index.) -/
def findTopAux (ch : ℕ → ℤ) : ℕ → Option ℕ
  | 0 => if ch 0 ≠ 0 then some 0 else none
  | i + 1 => if ch (i + 1) ≠ 0 then some (i + 1) else findTopAux ch i

/-- Index of the uppermost nonzero chunk of the accumulator (`u` in the
source), or `none` when the number is zero. -/
def findTop (ch : ℕ → ℤ) : Option ℕ := findTopAux ch (XSUM_SCHUNKS - 1)

/-- The main carry-propagation loop (`do { ... } while (i <= u)` in the
source), starting at the low-order chunks.  Arguments: remaining `fuel`
(the source loop terminates because `i` strictly increases and `u` is
bounded by the array size; the fuel is chosen large enough that it is
never exhausted under the stated invariants, see `cpLoop_fuel_aux`),
current chunk map, loop index `i`, current upper limit `u` (which the
loop itself may increase by one when a carry extends the number), and
the uppermost nonzero witness `uix` (`-1` in the source is `none` here).
Returns the final chunk map and witness.

The source's initial four-at-a-time skip of zero low-order chunks and
the inner two-at-a-time scan for the next nonzero chunk are performance
shortcuts whose effect is the `c = 0` skip branch here. -/
def cpLoop : ℕ → (ℕ → ℤ) → ℕ → ℕ → Option ℕ → ((ℕ → ℤ) × Option ℕ)
  | 0, ch, _, _, uix => (ch, uix)
  | fuel + 1, ch, i, u, uix =>
    if i > u then (ch, uix)
    else
      let c := ch i
      if c = 0 then cpLoop fuel ch (i + 1) u uix
      else
        -- propagate possible carry from this chunk to the next chunk up
        let chigh := c / 2 ^ 32
        if chigh = 0 then
          -- no need to change this chunk
          cpLoop fuel ch (i + 1) u (some i)
        else if u = i ∧ chigh = -1 then
          -- do not propagate -1 into the region of all zeros above
          (ch, some i)
        else
          let u' := if u = i then i + 1 else u
          let clow := c % 2 ^ 32
          let uix' := if clow ≠ 0 then some i else uix
          let ch' := upd (upd ch i clow) (i + 1) (w64 (ch (i + 1) + chigh))
          cpLoop fuel ch' (i + 1) u' uix'

/-- Final normalization of carry propagation: while the uppermost chunk
is -1 and not the lowest, clear it and fold `-2^32` into the chunk
below (the source expresses the shift of a negative value through a cast
to `xsum_lchunk`; the added constant is `-2^32`). -/
def negOneLoop (ch : ℕ → ℤ) : ℕ → ((ℕ → ℤ) × ℕ)
  | 0 => (ch, 0)
  | uix + 1 =>
    if ch (uix + 1) = -1 then
      negOneLoop (upd (upd ch (uix + 1) 0) uix (w64 (ch uix + -(2 ^ 32)))) uix
    else (ch, uix + 1)

/-- `xsum_small::carry_propagate` / `xsum_carry_propagate`: propagate
carries to the next chunk up so that the upper chunks fit a bounded
signed range, reset the remaining-adds counter, and return the index of
the uppermost nonzero chunk (0 if the number is zero). -/
def carry_propagate (s : SmallAcc) : SmallAcc × ℕ :=
  match findTop s.chunk with
  | none => ({ s with adds_until_propagate := XSUM_SMALL_CARRY_TERMS - 1 }, 0)
  | some u =>
    let p := cpLoop 150 s.chunk 0 u none
    match p.2 with
    | none => ({ s with chunk := p.1, adds_until_propagate := XSUM_SMALL_CARRY_TERMS - 1 }, 0)
    | some uix =>
      let q := negOneLoop p.1 uix
      ({ s with chunk := q.1, adds_until_propagate := XSUM_SMALL_CARRY_TERMS - 1 }, q.2)

/-! ## Small accumulator add operations -/

/-- `xsum_small::add(xsum_flt)`: add one binary64 value (bit pattern),
propagating carries first if the counter ran out. -/
def smallAdd (s : SmallAcc) (bits : ℕ) : SmallAcc :=
  let s1 := if s.adds_until_propagate = 0 then (carry_propagate s).1 else s
  let s2 := add_no_carry s1 bits
  { s2 with adds_until_propagate := s2.adds_until_propagate - 1 }

/-- `xsum_small::add_no_carry(xsum_flt const *, xsum_length n)`: add the
first `n - 1` values of the vector without carry propagation.  Here the
vector is a list and the function receives the `n - 1` values directly. -/
def add_no_carry_run (s : SmallAcc) (vec : List ℕ) : SmallAcc :=
  vec.foldl add_no_carry s

/-- `xsum_small::add(xsum_flt const *, xsum_length n)`: the batched
vector add.  Each round of the `while (c > 1)` loop propagates carries
if the counter ran out, computes the batch length
`m = c - (1 <= adds_until_propagate ? c - 1 : adds_until_propagate)`,
adds `m` values without propagation (the source passes `m + 1` to
`add_no_carry`, which adds one value fewer than its argument), and
decrements the counter by `m`; the last value goes through the
single-value `add`. -/
def smallAddVec (s : SmallAcc) (vec : List ℕ) : SmallAcc :=
  match vec with
  | [] => s
  | [x] => smallAdd s x
  | x :: y :: rest =>
    let s1 := if s.adds_until_propagate = 0 then (carry_propagate s).1 else s
    let c : ℤ := (x :: y :: rest).length
    let m : ℤ := c - (if 1 ≤ s1.adds_until_propagate then c - 1 else s1.adds_until_propagate)
    let s2 := add_no_carry_run s1 ((x :: y :: rest).take m.toNat)
    smallAddVec { s2 with adds_until_propagate := s2.adds_until_propagate - m }
      ((x :: y :: rest).drop m.toNat)
  termination_by vec.length
  decreasing_by
    simp only [List.length_drop, List.length_cons]
    split <;> split <;> omega

/-! ## Small + small merge (`xsum_add` on two small accumulators) -/

/-- `xsum_add_no_carry(xsum_small_accumulator *, xsum_small_accumulator
const *)`: merge another small accumulator without carry propagation.
If the other accumulator carries an Inf, only the Inf flag is merged; if
either carries a NaN, only the NaN flag is merged; otherwise the chunks
are added pointwise (`for i in [0, XSUM_SCHUNKS)`). -/
def add_no_carry_acc (sacc : SmallAcc) (value : SmallAcc) : SmallAcc :=
  if value.Inf ≠ 0 then
    if sacc.Inf = 0 then { sacc with Inf := value.Inf }
    else if sacc.Inf ≠ value.Inf then { sacc with Inf := infMinusInf }
    else sacc
  else if value.NaN ≠ 0 ∨ sacc.NaN ≠ 0 then
    if value.NaN ≠ 0 then
      if sacc.NaN % 2 ^ 52 < value.NaN % 2 ^ 52 then { sacc with NaN := value.NaN }
      else sacc
    else sacc
  else
    { sacc with chunk :=
        (fun i => if i < XSUM_SCHUNKS then w64 (sacc.chunk i + value.chunk i) else sacc.chunk i) }

/-- `xsum_add(xsum_small_accumulator *, xsum_small_accumulator const *)`:
propagate the recipient's carries if its counter ran out, merge without
carry, and decrement the recipient's counter by one. -/
def small_add_acc (sacc : SmallAcc) (value : SmallAcc) : SmallAcc :=
  let s1 := if sacc.adds_until_propagate = 0 then (carry_propagate sacc).1 else sacc
  let s2 := add_no_carry_acc s1 value
  { s2 with adds_until_propagate := s2.adds_until_propagate - 1 }

/-! ## Small accumulator rounding (`xsum_small::round`) -/

/-- Biased exponent field of the binary64 obtained by converting the
int64 `ivalue` to a double and reading `(u.intv >> 52) & 0x7FF`.  At
both call sites in `round` the value satisfies `|ivalue| ≤ 2 ^ 32 <
2 ^ 53`, so the int-to-double conversion is exact and the extracted
field equals `1023 + floor(log2 |ivalue|)` (and 0 for a zero value).
`log2floor fuel n` is `floor(log2 n)` for `1 <= n < 2 ^ fuel` (a
fuel-structural recursion so that the kernel can evaluate it; 64 bits of
fuel cover every `int64` magnitude). -/
def log2floor : ℕ → ℕ → ℕ
  | 0, _ => 0
  | fuel + 1, n => if n ≤ 1 then 0 else log2floor fuel (n / 2) + 1

def dblExpOf (ivalue : ℤ) : ℤ :=
  if ivalue = 0 then 0 else 1023 + log2floor 64 ivalue.natAbs

/-- The scan of the chunks strictly below index `j` performed by the
rounding routine when the residual `lower` bits are zero
(`while (j > 0) { --j; if (chunk[j] != 0) ... }`): true iff some chunk
with index `< j` is nonzero. -/
def tailNonzero (ch : ℕ → ℤ) : ℕ → Bool
  | 0 => false
  | k + 1 => (ch k != 0) || tailNonzero ch k

/-- The normal-number path of `xsum_small::round`, starting at comment
"Find the location of the uppermost 1 bit ...": aligns the top chunk,
pulls mantissa bits from one or two chunks below, handles the
short-mantissa negative case, rounds to nearest with ties to even, and
assembles the binary64 result (overflowing to an infinity). -/
def roundNormal (ch : ℕ → ℤ) (i : ℕ) : ℕ :=
  let ivalue0 := ch i
  let e0 : ℤ := dblExpOf ivalue0
  let more0 : ℤ := 1 + 52 + 1023 - e0
  let iv0 := w64 (ivalue0 * 2 ^ more0.toNat)
  let j0 : ℕ := i - 1
  let lower0 : ℤ := ch j0
  -- if more >= 32, pull a whole chunk and continue with the one below
  let more1 : ℤ := if 32 ≤ more0 then more0 - 32 else more0
  let j1 : ℕ := if 32 ≤ more0 then j0 - 1 else j0
  let iv1 : ℤ := if 32 ≤ more0 then w64 (iv0 + lower0 * 2 ^ more1.toNat) else iv0
  let lower1 : ℤ :=
    if 32 ≤ more0 then (if j0 = 0 then 0 else ch (j0 - 1)) else lower0
  let iv2 : ℤ := w64 (iv1 + lower1 / 2 ^ (32 - more1.toNat))
  let lower2 : ℤ := lower1 % 2 ^ (32 - more1.toNat)
  -- a negative value whose negation lacks bit 53 takes one more bit
  let needBit : Bool := iv2 < 0 && (toBits (w64 (-iv2)) / 2 ^ 53) % 2 = 0
  let pos : ℤ := 2 ^ (31 - more1).toNat
  let iv3 : ℤ := if needBit then
      (if (lower2 / pos) % 2 = 1 then w64 (iv2 * 2) + 1 else w64 (iv2 * 2))
    else iv2
  let lower3 : ℤ := if needBit ∧ (lower2 / pos) % 2 = 1 then lower2 - pos else lower2
  let e1 : ℤ := if needBit then e0 - 1 else e0
  -- separate the sign, leaving the absolute value of the mantissa
  let sgn : ℤ := if iv3 < 0 then 2 ^ 63 else 0
  let iv4 : ℤ := if iv3 < 0 then w64 (-iv3) else iv3
  -- round to nearest, ties to even
  let away : Bool :=
    if iv4 % 2 = 0 then false
    else if sgn = 0 then
      if (iv4 / 2) % 2 = 1 then true
      else if lower3 ≠ 0 then true
      else tailNonzero ch j1
    else
      if (iv4 / 2) % 2 = 0 then false
      else if lower3 ≠ 0 then false
      else !tailNonzero ch j1
  let iv5 : ℤ := if away then iv4 + 2 else iv4
  let e2 : ℤ := if away ∧ (iv5 / 2 ^ 54) % 2 = 1 then e1 + 1 else e1
  let iv6 : ℤ := if away ∧ (iv5 / 2 ^ 54) % 2 = 1 then iv5 / 2 else iv5
  -- drop the extra rounding bit and adjust to the true exponent
  let iv7 : ℤ := iv6 / 2
  let efin : ℤ := e2 + 32 * (i : ℤ) - 1023 - 52
  if 2047 ≤ efin then toBits (sgn + 2047 * 2 ^ 52)
  else toBits (sgn + efin * 2 ^ 52 + iv7 % 2 ^ 52)

/-- The portion of `xsum_small::round` after carry propagation, given
the propagated chunks and the returned index `i` of the uppermost
nonzero chunk: the zero and denormalized cases, falling through to
`roundNormal` otherwise. -/
def round_post (ch : ℕ → ℤ) (i : ℕ) : ℕ :=
  let ivalue := ch i
  if i ≤ 1 then
    if ivalue = 0 then 0
    else if i = 0 then
      ivalue.natAbs / 2 + (if ivalue < 0 then 2 ^ 63 else 0)
    else
      let m0 := w64 (ivalue * 2 ^ 31 + ch 0 / 2)
      let m1 := if m0 < 0 then w64 (-m0) else m0
      if toBits m1 < 2 ^ 52 then toBits m1 + (if ivalue < 0 then 2 ^ 63 else 0)
      else roundNormal ch i
  else roundNormal ch i

/-- `xsum_small::round`: NaN and Inf flags take precedence (in that
order); otherwise propagate carries and round the propagated chunks.
Returns the bit pattern of the resulting binary64. -/
def small_round (s : SmallAcc) : ℕ :=
  if s.NaN ≠ 0 then toBits s.NaN
  else if s.Inf ≠ 0 then toBits s.Inf
  else
    let p := carry_propagate s
    round_post p.1.chunk p.2

/-! ## Large accumulator (`struct xsum_large_accumulator`, `class xsum_large`) -/

/-- `xsum_large_accumulator`: 4096 unsigned 64-bit bins indexed by the
top 12 bits (sign + exponent) of a binary64, per-bin counts of remaining
adds (-1 = never used, or a special Inf/NaN bin), the used-bin bit-set
(64 words of 64 bits) with its one-word summary, and the embedded small
accumulator that bins are condensed into. -/
structure LargeAcc where
  chunk : ℕ → ℕ
  count : ℕ → ℤ
  chunks_used : ℕ → ℕ
  used_used : ℕ
  sacc : SmallAcc
  deriving Inhabited

/-- A freshly constructed large accumulator: all chunks zero, all counts
-1, bitmaps clear, embedded small accumulator zero. -/
def largeInit : LargeAcc :=
  { chunk := fun _ => 0, count := fun _ => -1, chunks_used := fun _ => 0,
    used_used := 0, sacc := smallInit }

/-- `xsum_large::add_lchunk_to_small`: condense bin `ix` into the small
accumulator.  If the bin's count is not -1: propagate the small
accumulator's carries if needed, cancel the summed sign/exponent fields
out of the bin (`chunk += (count * ix) << 52`, wrapping), split the
mantissa sum into three aligned parts, add the sum of implicit leading
1 bits for normal bins, and add or subtract the three parts from three
consecutive small chunks according to the bin's sign.  In every case the
bin is then reset: chunk 0, count 2^12, used bits set. -/
def add_lchunk_to_small (l : LargeAcc) (ix : ℕ) : LargeAcc :=
  let count := l.count ix
  let l1 :=
    if 0 ≤ count then
      let s0 := if l.sacc.adds_until_propagate = 0 then (carry_propagate l.sacc).1 else l.sacc
      let chunk0 : ℕ := l.chunk ix
      let chunk1 : ℕ :=
        if 0 < count then (chunk0 + (count * ix).toNat * 2 ^ 52) % 2 ^ 64 else chunk0
      let exp : ℕ := ix % 2 ^ 11
      let low_exp : ℕ := if exp = 0 then 1 else exp % 2 ^ 5
      let high_exp : ℕ := if exp = 0 then 0 else exp / 2 ^ 5
      let low_chunk : ℤ := ((chunk1 * 2 ^ low_exp) % 2 ^ 32 : ℕ)
      let mid_chunk0 : ℕ := chunk1 / 2 ^ (32 - low_exp)
      let mid_chunk1 : ℕ :=
        if exp ≠ 0 then
          (mid_chunk0 + (2 ^ 12 - count).toNat * 2 ^ (52 - 32 + low_exp)) % 2 ^ 64
        else mid_chunk0
      let high_chunk : ℤ := (mid_chunk1 / 2 ^ 32 : ℕ)
      let mid_chunk : ℤ := (mid_chunk1 % 2 ^ 32 : ℕ)
      let sch := s0.chunk
      let sch' :=
        if ix / 2 ^ 11 % 2 = 1 then
          (upd (upd (upd sch high_exp (w64 (sch high_exp - low_chunk)))
            (high_exp + 1) (w64 (sch (high_exp + 1) - mid_chunk)))
            (high_exp + 2) (w64 (sch (high_exp + 2) - high_chunk)))
        else
          (upd (upd (upd sch high_exp (w64 (sch high_exp + low_chunk)))
            (high_exp + 1) (w64 (sch (high_exp + 1) + mid_chunk)))
            (high_exp + 2) (w64 (sch (high_exp + 2) + high_chunk)))
      { l with sacc :=
          { s0 with chunk := sch',
                    adds_until_propagate := s0.adds_until_propagate - 1 } }
    else l
  { l1 with
    chunk := upd l1.chunk ix 0,
    count := upd l1.count ix (2 ^ 12),
    chunks_used := upd l1.chunks_used (ix / 64) (l1.chunks_used (ix / 64) ||| 2 ^ (ix % 64)),
    used_used := l1.used_used ||| 2 ^ (ix / 64) }

/-- `xsum_large::add_value_inf_nan`: called when a bin's count went
negative after decrementing.  An Inf/NaN bin (exponent field of the
index all ones) routes the bit pattern to the small accumulator's flag
handler; otherwise the bin is condensed and then receives the
triggering value (count decremented, pattern added). -/
def large_add_value_inf_nan (l : LargeAcc) (ix : ℕ) (uintv : ℕ) : LargeAcc :=
  if ix % 2 ^ 11 = XSUM_EXP_MASK then
    { l with sacc := add_inf_nan l.sacc (toIvalue uintv) }
  else
    let l1 := add_lchunk_to_small l ix
    { l1 with
      count := upd l1.count ix (l1.count ix - 1),
      chunk := upd l1.chunk ix ((l1.chunk ix + uintv) % 2 ^ 64) }

/-- `xsum_large::add(xsum_flt)`: add one binary64 value (bit pattern).
The bin index is the value's top 12 bits; decrement the bin's count and,
if it stays nonnegative, add the raw bit pattern into the bin; otherwise
dispatch to `add_value_inf_nan`. -/
def largeAddOne (l : LargeAcc) (bits : ℕ) : LargeAcc :=
  let ix : ℕ := bits / 2 ^ 52
  let count := l.count ix - 1
  if count < 0 then large_add_value_inf_nan l ix bits
  else
    { l with
      count := upd l.count ix count,
      chunk := upd l.chunk ix ((l.chunk ix + bits) % 2 ^ 64) }

/-- The epilogue of `xsum_large::add(vec, n)` ("process the last one or
two values, without pre-fetching"): its body is the same scalar update
as `xsum_large::add(value)`. -/
def largeEpilogue (l : LargeAcc) (f : ℕ) (v : List ℕ) (m : ℤ) : LargeAcc :=
  let lp := largeAddOne l f
  if m - 1 = 0 then lp
  else
    match v with
    | [] => lp
    | x :: vr => largeEpilogue lp x vr (m - 1)

/-- The unrolled two-values-at-a-time loop of `xsum_large::add(vec, n)`.
`f` is the prefetched next value, `v` the values after it, and `m` the
signed counter `n - 3` used to merge the three sign tests
(`(count1 | count2 | m) >= 0`, equivalent to all three being
nonnegative).  Bin updates for both lanes are performed speculatively;
when a decremented count went negative the updates are backed out in
reverse order and the lanes are re-processed through
`add_value_inf_nan`.  When `m` goes negative the last one or two values
are processed by the scalar epilogue. -/
def largeLoop : LargeAcc → ℕ → List ℕ → ℤ → LargeAcc
  | l, f, u2 :: fp :: rest, m =>
    if 0 ≤ m then
      let ix1 : ℕ := f / 2 ^ 52
      let count1 := l.count ix1 - 1
      let l1 : LargeAcc :=
        { l with count := upd l.count ix1 count1,
                 chunk := upd l.chunk ix1 ((l.chunk ix1 + f) % 2 ^ 64) }
      let ix2 : ℕ := u2 / 2 ^ 52
      let count2 := l1.count ix2 - 1
      let l2 : LargeAcc :=
        { l1 with count := upd l1.count ix2 count2,
                  chunk := upd l1.chunk ix2 ((l1.chunk ix2 + u2) % 2 ^ 64) }
      let mp := m - 2
      if 0 ≤ count1 ∧ 0 ≤ count2 ∧ 0 ≤ mp then largeLoop l2 fp rest mp
      else
        let l3 :=
          if count1 < 0 ∨ count2 < 0 then
            -- back out the speculative updates: second lane first
            let la : LargeAcc :=
              { l2 with count := upd l2.count ix2 (count2 + 1),
                        chunk := upd l2.chunk ix2 (sub64 (l2.chunk ix2) u2) }
            if count1 < 0 then
              let lb : LargeAcc :=
                { la with count := upd la.count ix1 (count1 + 1),
                          chunk := upd la.chunk ix1 (sub64 (la.chunk ix1) f) }
              let lc := large_add_value_inf_nan lb ix1 f
              let count2p := lc.count ix2 - 1
              if count2p < 0 then large_add_value_inf_nan lc ix2 u2
              else
                { lc with count := upd lc.count ix2 count2p,
                          chunk := upd lc.chunk ix2 ((lc.chunk ix2 + u2) % 2 ^ 64) }
            else
              if count2 < 0 then large_add_value_inf_nan la ix2 u2
              else
                { la with count := upd la.count ix2 count2,
                          chunk := upd la.chunk ix2 ((la.chunk ix2 + u2) % 2 ^ 64) }
          else l2
        largeLoop l3 fp rest mp
    else largeEpilogue l f (u2 :: fp :: rest) (m + 3)
  | l, f, v, m =>
    -- fewer than two values remain ahead of the prefetched one, so the
    -- inner two-lane loop cannot run (its entry requires 0 ≤ m = n - 3)
    if 0 ≤ m then l else largeEpilogue l f v (m + 3)
  termination_by _ _ v _ => v.length
  decreasing_by
    all_goals simp only [List.length_cons]
    all_goals omega

/-- `xsum_large::add(xsum_flt const *, xsum_length n)`: the manually
optimized vector add (loop unrolled two-wide with speculative updates
and prefetch of the next value). -/
def largeAddVec (l : LargeAcc) (vec : List ℕ) : LargeAcc :=
  match vec with
  | [] => l
  | f :: rest => largeLoop l f rest ((vec.length : ℤ) - 3)

/-! ## Basic lemmas about the wrap and update helpers -/

theorem w64_bounds (x : ℤ) : -(2 ^ 63) ≤ w64 x ∧ w64 x < 2 ^ 63 := by
  unfold w64; omega

theorem w64_eq_self {x : ℤ} (h1 : -(2 ^ 63) ≤ x) (h2 : x < 2 ^ 63) : w64 x = x := by
  unfold w64; omega

theorem w64_sub_dvd (x : ℤ) : (2 ^ 64 : ℤ) ∣ (w64 x - x) := by
  unfold w64; omega

theorem w64_add_left (a b : ℤ) : w64 (w64 a + b) = w64 (a + b) := by
  unfold w64; omega

theorem w64_add_right (a b : ℤ) : w64 (a + w64 b) = w64 (a + b) := by
  unfold w64; omega

@[simp] theorem upd_same {α : Type} (f : ℕ → α) (i : ℕ) (v : α) : upd f i v i = v := by
  simp [upd]

theorem upd_other {α : Type} (f : ℕ → α) (i j : ℕ) (v : α) (h : j ≠ i) :
    upd f i v j = f j := by
  simp [upd, h]

theorem aup_carry_propagate (s : SmallAcc) :
    (carry_propagate s).1.adds_until_propagate = XSUM_SMALL_CARRY_TERMS - 1 := by
  unfold carry_propagate
  rcases findTop s.chunk with _ | u
  · rfl
  · dsimp only
    rcases (cpLoop 150 s.chunk 0 u none).2 with _ | uix
    · rfl
    · rfl

theorem aup_add_inf_nan (s : SmallAcc) (iv : ℤ) :
    (add_inf_nan s iv).adds_until_propagate = s.adds_until_propagate := by
  unfold add_inf_nan
  dsimp only
  split
  · split
    · rfl
    · split
      · rfl
      · rfl
  · split
    · rfl
    · rfl

theorem chunk_add_inf_nan (s : SmallAcc) (iv : ℤ) :
    (add_inf_nan s iv).chunk = s.chunk := by
  unfold add_inf_nan
  dsimp only
  split
  · split
    · rfl
    · split
      · rfl
      · rfl
  · split
    · rfl
    · rfl

theorem aup_add_no_carry (s : SmallAcc) (b : ℕ) :
    (add_no_carry s b).adds_until_propagate = s.adds_until_propagate := by
  unfold add_no_carry
  dsimp only
  split
  · exact aup_add_inf_nan s _
  · split
    · rfl
    · split
      · rfl
      · rfl

/-! ## Claim C3: `add(vec, n)` is equivalent to `n` scalar adds -/

theorem smallAddVec_cons_cons (s : SmallAcc) (x y : ℕ) (rest : List ℕ)
    (h : 0 ≤ s.adds_until_propagate) :
    smallAddVec s (x :: y :: rest) = smallAddVec (smallAdd s x) (y :: rest) := by
  rw [smallAddVec]
  have h1 : (1 : ℤ) ≤ (if s.adds_until_propagate = 0
      then (carry_propagate s).1 else s).adds_until_propagate := by
    split
    · rw [aup_carry_propagate]; unfold XSUM_SMALL_CARRY_TERMS; omega
    · omega
  rw [if_pos h1]
  have hm : ((((x :: y :: rest).length : ℤ)) -
      (((x :: y :: rest).length : ℤ) - 1)).toNat = 1 := by
    simp only [List.length_cons]; omega
  rw [hm]
  have hc : (((x :: y :: rest).length : ℤ)) - ((((x :: y :: rest).length : ℤ)) - 1) = 1 := by
    omega
  rw [hc]
  rfl

theorem smallAddVec_eq_foldl (vec : List ℕ) (s : SmallAcc)
    (h : 0 ≤ s.adds_until_propagate) :
    smallAddVec s vec = vec.foldl smallAdd s := by
  induction vec generalizing s with
  | nil => rw [smallAddVec]; rfl
  | cons x vec' ih =>
    cases vec' with
    | nil => rw [smallAddVec]; rfl
    | cons y rest =>
      rw [smallAddVec_cons_cons s x y rest h, List.foldl_cons]
      apply ih
      show 0 ≤ (smallAdd s x).adds_until_propagate
      unfold smallAdd
      dsimp only
      rw [aup_add_no_carry]
      split
      · rw [aup_carry_propagate]; unfold XSUM_SMALL_CARRY_TERMS; omega
      · omega

theorem upd_upd_same {α : Type} (f : ℕ → α) (i : ℕ) (a b : α) :
    upd (upd f i a) i b = upd f i b := by
  funext j; unfold upd; split <;> rfl

theorem upd_upd_self {α : Type} (f : ℕ → α) (i : ℕ) :
    upd f i (f i) = f := by
  funext j
  unfold upd
  split
  · next h => rw [h]
  · rfl

theorem sub64_add64 (a b : ℕ) (ha : a < 2 ^ 64) :
    sub64 ((a + b) % 2 ^ 64) b = a := by
  unfold sub64; omega

/-- Bins stay below `2 ^ 64` through condensation. -/
theorem chunk_lt_add_lchunk (l : LargeAcc) (ix : ℕ) (h : ∀ i, l.chunk i < 2 ^ 64) :
    ∀ i, (add_lchunk_to_small l ix).chunk i < 2 ^ 64 := by
  intro i
  unfold add_lchunk_to_small
  unfold upd
  dsimp only
  split
  · norm_num
  · split <;> exact h i

/-- Bins stay below `2 ^ 64` through `add_value_inf_nan`. -/
theorem chunk_lt_inf_nan (l : LargeAcc) (ix : ℕ) (u : ℕ) (h : ∀ i, l.chunk i < 2 ^ 64) :
    ∀ i, (large_add_value_inf_nan l ix u).chunk i < 2 ^ 64 := by
  intro i
  unfold large_add_value_inf_nan
  split
  · exact h i
  · unfold upd
    dsimp only
    split
    · omega
    · exact chunk_lt_add_lchunk l ix h i

/-- Bins stay below `2 ^ 64` through a scalar add. -/
theorem chunk_lt_largeAddOne (l : LargeAcc) (b : ℕ) (h : ∀ i, l.chunk i < 2 ^ 64) :
    ∀ i, (largeAddOne l b).chunk i < 2 ^ 64 := by
  intro i
  unfold largeAddOne
  dsimp only
  split
  · exact chunk_lt_inf_nan l _ b h i
  · unfold upd
    dsimp only
    split
    · omega
    · exact h i

/-- The epilogue processes the remaining `m = 1 + v.length` values
exactly like sequential scalar adds. -/
theorem largeEpilogue_eq (v : List ℕ) : ∀ (l : LargeAcc) (f : ℕ),
    largeEpilogue l f v (1 + v.length) = (f :: v).foldl largeAddOne l := by
  induction v with
  | nil =>
    intro l f
    rw [largeEpilogue]
    norm_num
  | cons x vr ih =>
    intro l f
    rw [largeEpilogue]
    have hne : (1 + (x :: vr).length : ℤ) - 1 ≠ 0 := by
      simp only [List.length_cons]
      push_cast
      omega
    rw [if_neg hne]
    have harg : (1 + (x :: vr).length : ℤ) - 1 = 1 + vr.length := by
      simp only [List.length_cons]
      push_cast
      omega
    rw [harg, ih (largeAddOne l f) x]
    rfl

theorem LargeAcc_eq_of (a b : LargeAcc) (h1 : a.chunk = b.chunk) (h2 : a.count = b.count)
    (h3 : a.chunks_used = b.chunks_used) (h4 : a.used_used = b.used_used)
    (h5 : a.sacc = b.sacc) : a = b := by
  cases a; cases b
  cases h1; cases h2; cases h3; cases h4; cases h5
  rfl

set_option maxHeartbeats 1000000 in
theorem largeLoop_eq_aux (n : ℕ) : ∀ (v : List ℕ), v.length ≤ n →
    ∀ (l : LargeAcc) (f : ℕ), (∀ i, l.chunk i < 2 ^ 64) →
    largeLoop l f v ((1 + v.length : ℤ) - 3) = (f :: v).foldl largeAddOne l := by
  induction n with
  | zero =>
    intro v hv l f _
    have hvnil : v = [] := List.length_eq_zero.mp (Nat.le_zero.mp hv)
    subst hvnil
    rw [largeLoop, if_neg (by norm_num)]
    · have h3 : ((1 + ([] : List ℕ).length : ℤ) - 3) + 3 = 1 + ([] : List ℕ).length := by ring
      rw [h3]
      exact largeEpilogue_eq [] l f
    · exact fun _ _ _ h => by simp at h
  | succ n ih =>
    intro v hv l f hc
    rcases v with _ | ⟨u2, _ | ⟨fp, rest⟩⟩
    · rw [largeLoop, if_neg (by norm_num)]
      · have h3 : ((1 + ([] : List ℕ).length : ℤ) - 3) + 3 = 1 + ([] : List ℕ).length := by ring
        rw [h3]
        exact largeEpilogue_eq [] l f
      · exact fun _ _ _ h => by simp at h
    · rw [largeLoop, if_neg (by norm_num)]
      · have h3 : ((1 + ([u2] : List ℕ).length : ℤ) - 3) + 3 = 1 + ([u2] : List ℕ).length := by
          ring
        rw [h3]
        exact largeEpilogue_eq [u2] l f
      · exact fun _ _ _ h => by simp at h
    · have hm : (0 : ℤ) ≤ (1 + (u2 :: fp :: rest).length : ℤ) - 3 := by
        simp only [List.length_cons]
        push_cast
        omega
      rw [largeLoop, if_pos hm]
      dsimp only
      set ix1 : ℕ := f / 2 ^ 52 with hix1
      set count1 : ℤ := l.count ix1 - 1 with hcount1
      set c1f : ℕ → ℕ := upd l.chunk ix1 ((l.chunk ix1 + f) % 2 ^ 64) with hc1f
      set k1 : ℕ → ℤ := upd l.count ix1 count1 with hk1
      set ix2 : ℕ := u2 / 2 ^ 52 with hix2
      set count2 : ℤ := k1 ix2 - 1 with hcount2
      set c2f : ℕ → ℕ := upd c1f ix2 ((c1f ix2 + u2) % 2 ^ 64) with hc2f
      set k2 : ℕ → ℤ := upd k1 ix2 count2 with hk2
      set mp : ℤ := 1 + ((u2 :: fp :: rest).length : ℤ) - 3 - 2 with hmp
      have hrest : rest.length ≤ n := by
        simp only [List.length_cons] at hv
        omega
      have hmpeq : mp = (1 + (rest.length : ℤ)) - 3 := by
        rw [hmp]
        simp only [List.length_cons]
        push_cast
        ring
      have hbc1 : ∀ i, c1f i < 2 ^ 64 := by
        intro i
        rw [hc1f]
        unfold upd
        split
        · exact Nat.mod_lt _ (by norm_num)
        · exact hc i
      have hbc2 : ∀ i, c2f i < 2 ^ 64 := by
        intro i
        rw [hc2f]
        unfold upd
        split
        · exact Nat.mod_lt _ (by norm_num)
        · exact hbc1 i
      have hfold : List.foldl largeAddOne l (f :: u2 :: fp :: rest) =
          List.foldl largeAddOne (largeAddOne (largeAddOne l f) u2) (fp :: rest) := rfl
      rw [hfold]
      by_cases h1 : count1 < 0
      · -- first lane's count went negative: the whole two-lane update is
        -- backed out and both values are re-dispatched
        have hP : ¬ (0 ≤ count1 ∧ 0 ≤ count2 ∧ 0 ≤ mp) := by
          intro h
          omega
        rw [if_neg hP, if_pos (Or.inl h1), if_pos h1]
        have hlachunk : upd c2f ix2 (sub64 (c2f ix2) u2) = c1f := by
          rw [hc2f, upd_same, upd_upd_same, sub64_add64 _ _ (hbc1 ix2)]
          exact upd_upd_self c1f ix2
        have hlacount : upd k2 ix2 (count2 + 1) = k1 := by
          rw [hk2, upd_upd_same]
          have h : count2 + 1 = k1 ix2 := by
            rw [hcount2]
            ring
          rw [h]
          exact upd_upd_self k1 ix2
        rw [hlachunk, hlacount]
        have hlbchunk : upd c1f ix1 (sub64 (c1f ix1) f) = l.chunk := by
          rw [hc1f, upd_same, upd_upd_same, sub64_add64 _ _ (hc ix1)]
          exact upd_upd_self l.chunk ix1
        have hlbcount : upd k1 ix1 (count1 + 1) = l.count := by
          rw [hk1, upd_upd_same]
          have h : count1 + 1 = l.count ix1 := by
            rw [hcount1]
            ring
          rw [h]
          exact upd_upd_self l.count ix1
        rw [hlbchunk, hlbcount]
        have heta : ({ chunk := l.chunk, count := l.count, chunks_used := l.chunks_used,
                       used_used := l.used_used, sacc := l.sacc } : LargeAcc) = l := by
          exact LargeAcc_eq_of _ _ rfl rfl rfl rfl rfl
        rw [heta]
        set lc := large_add_value_inf_nan l ix1 f with hlc
        have seqA : largeAddOne l f = lc := by
          rw [hlc]
          simp only [largeAddOne]
          rw [← hix1, ← hcount1, if_pos h1]
        rw [seqA]
        have hblc : ∀ i, lc.chunk i < 2 ^ 64 := chunk_lt_inf_nan l ix1 f hc
        by_cases hcp : lc.count ix2 - 1 < 0
        · rw [if_pos hcp]
          have seqB : largeAddOne lc u2 = large_add_value_inf_nan lc ix2 u2 := by
            simp only [largeAddOne]
            rw [← hix2, if_pos hcp]
          rw [seqB, hmpeq]
          exact ih rest hrest _ fp (chunk_lt_inf_nan lc ix2 u2 hblc)
        · rw [if_neg hcp]
          have seqB : largeAddOne lc u2 =
              ({ chunk := upd lc.chunk ix2 ((lc.chunk ix2 + u2) % 2 ^ 64),
                 count := upd lc.count ix2 (lc.count ix2 - 1),
                 chunks_used := lc.chunks_used, used_used := lc.used_used,
                 sacc := lc.sacc } : LargeAcc) := by
            simp only [largeAddOne]
            rw [← hix2, if_neg hcp]
          rw [seqB, hmpeq]
          refine ih rest hrest _ fp ?_
          intro i
          unfold upd
          dsimp only
          split
          · exact Nat.mod_lt _ (by norm_num)
          · exact hblc i
      · -- first lane's count stayed nonnegative: its speculative update
        -- stands and equals the scalar add
        have seqA : largeAddOne l f = ({ chunk := c1f, count := k1,
                                         chunks_used := l.chunks_used, used_used := l.used_used,
                                         sacc := l.sacc } : LargeAcc) := by
          simp only [largeAddOne]
          rw [← hix1, ← hcount1, if_neg h1, ← hc1f, ← hk1]
        by_cases h2 : count2 < 0
        · have hP : ¬ (0 ≤ count1 ∧ 0 ≤ count2 ∧ 0 ≤ mp) := by
            intro h
            omega
          rw [if_neg hP, if_pos (Or.inr h2), if_neg h1, if_pos h2]
          have hlachunk : upd c2f ix2 (sub64 (c2f ix2) u2) = c1f := by
            rw [hc2f, upd_same, upd_upd_same, sub64_add64 _ _ (hbc1 ix2)]
            exact upd_upd_self c1f ix2
          have hlacount : upd k2 ix2 (count2 + 1) = k1 := by
            rw [hk2, upd_upd_same]
            have h : count2 + 1 = k1 ix2 := by
              rw [hcount2]
              ring
            rw [h]
            exact upd_upd_self k1 ix2
          rw [hlachunk, hlacount, ← seqA]
          have seqB : largeAddOne (largeAddOne l f) u2 =
              large_add_value_inf_nan (largeAddOne l f) ix2 u2 := by
            rw [seqA]
            simp only [largeAddOne]
            rw [← hix2, ← hcount2, if_pos h2]
          rw [seqB, hmpeq]
          refine ih rest hrest _ fp ?_
          rw [seqA]
          exact chunk_lt_inf_nan _ ix2 u2 hbc1
        · -- both counts nonnegative: both speculative updates stand
          have seqB : largeAddOne (largeAddOne l f) u2 = ({ chunk := c2f, count := k2,
                                                            chunks_used := l.chunks_used,
                                                            used_used := l.used_used,
                                                            sacc := l.sacc } : LargeAcc) := by
            rw [seqA]
            simp only [largeAddOne]
            rw [← hix2, ← hcount2, if_neg h2, ← hc2f, ← hk2]
          rw [seqB]
          by_cases h3 : 0 ≤ mp
          · rw [if_pos ⟨by omega, by omega, h3⟩, hmpeq]
            exact ih rest hrest _ fp hbc2
          · have hP : ¬ (0 ≤ count1 ∧ 0 ≤ count2 ∧ 0 ≤ mp) := by
              intro h
              omega
            rw [if_neg hP, if_neg (by omega : ¬ (count1 < 0 ∨ count2 < 0)), hmpeq]
            exact ih rest hrest _ fp hbc2
/-- Claim C3: for every vector `v` of `n` binary64 values and every
accumulator state (with a nonnegative remaining-adds counter for the
small accumulator, resp. in-range bins for the large one, as any
reachable state has), `add_values(v, n)` leaves the accumulator in
exactly the state reached by the `n` calls `add_value(v[0])`, ...,
`add_value(v[n-1])` in order — in particular the two are observationally
equivalent (same represented value, flags, and subsequent `round()`
result); this holds for both the small and the large accumulator. -/
theorem claim_C3 :
    (∀ (s : SmallAcc) (vec : List ℕ), 0 ≤ s.adds_until_propagate →
      smallAddVec s vec = vec.foldl smallAdd s) ∧
    (∀ (l : LargeAcc) (vec : List ℕ), (∀ i, l.chunk i < 2 ^ 64) →
      largeAddVec l vec = vec.foldl largeAddOne l) := by
  constructor
  · intro s vec h
    exact smallAddVec_eq_foldl vec s h
  · intro l vec h
    cases vec with
    | nil => rfl
    | cons f rest =>
      show largeLoop l f rest (((f :: rest).length : ℤ) - 3) = (f :: rest).foldl largeAddOne l
      have harg : (((f :: rest).length : ℤ) - 3) = (1 + (rest.length : ℤ)) - 3 := by
        simp only [List.length_cons]
        push_cast
        ring
      rw [harg]
      exact largeLoop_eq_aux rest.length rest le_rfl l f h

/-- Witness for C3 at concrete inputs: the vector [1.5, -2.25, 2^-1074]
added to fresh small and large accumulators. -/
theorem claim_C3_witness :
    smallAddVec smallInit [4609434218613702656, 13839561654909534208, 1] =
      [4609434218613702656, 13839561654909534208, 1].foldl smallAdd smallInit ∧
    largeAddVec largeInit [4609434218613702656, 13839561654909534208, 1] =
      [4609434218613702656, 13839561654909534208, 1].foldl largeAddOne largeInit :=
  ⟨claim_C3.1 smallInit _ (by norm_num [smallInit, XSUM_SMALL_CARRY_TERMS]),
   claim_C3.2 largeInit _ (fun i => by norm_num [largeInit])⟩

theorem SmallAcc_eq_of (a b : SmallAcc) (h1 : a.chunk = b.chunk) (h2 : a.Inf = b.Inf)
    (h3 : a.NaN = b.NaN) (h4 : a.adds_until_propagate = b.adds_until_propagate) : a = b := by
  cases a; cases b
  cases h1; cases h2; cases h3; cases h4
  rfl

theorem aup_add_no_carry_run (l : List ℕ) : ∀ (s : SmallAcc),
    (add_no_carry_run s l).adds_until_propagate = s.adds_until_propagate := by
  induction l with
  | nil => intro s; rfl
  | cons x t ih =>
    intro s
    show (add_no_carry_run (add_no_carry s x) t).adds_until_propagate = _
    rw [ih, aup_add_no_carry]

/-- `add_no_carry` reads and writes only the chunks and flags, so it
commutes with overwriting the remaining-adds counter. -/
theorem add_no_carry_set_aup (u : SmallAcc) (a : ℤ) (b : ℕ) :
    add_no_carry { u with adds_until_propagate := a } b =
    { add_no_carry u b with adds_until_propagate := a } := by
  unfold add_no_carry add_inf_nan
  dsimp only
  repeat' split
  all_goals rfl

theorem add_no_carry_run_set_aup (l : List ℕ) : ∀ (u : SmallAcc) (a : ℤ),
    add_no_carry_run { u with adds_until_propagate := a } l =
    { add_no_carry_run u l with adds_until_propagate := a } := by
  induction l with
  | nil => intro u a; rfl
  | cons x t ih =>
    intro u a
    show add_no_carry_run (add_no_carry { u with adds_until_propagate := a } x) t = _
    rw [add_no_carry_set_aup, ih]
    rfl

/-! ## Claim C7: the batch partitioning of the small vector add -/

/-- Modelled from the spec (§4.2, contract `small_add_vector(v, n)`),
for comparison with the source's `xsum_small::add(vec, n)`: partition
`v` into runs of length `m = min(c - 1, adds_until_propagate)` where `c`
counts the elements still to process; before each run, if
`adds_until_propagate = 0` propagate; then add the run of `m` values
without propagation, decrementing the counter by `m`; finally add the
last value via the single-value add.  The fuel argument (initialized to
the list length) only serves termination: the spec presupposes the
counter is positive after propagation (it is 2046), so each round
consumes at least one element and the fuel is never exhausted. -/
def specSmallAddVecAux : ℕ → SmallAcc → List ℕ → SmallAcc
  | _, s, [] => s
  | _, s, [x] => smallAdd s x
  | 0, s, _ => s
  | fuel + 1, s, x :: y :: rest =>
    let s1 := if s.adds_until_propagate = 0 then (carry_propagate s).1 else s
    let c : ℤ := (x :: y :: rest).length
    let m : ℤ := min (c - 1) s1.adds_until_propagate
    let s2 := add_no_carry_run s1 ((x :: y :: rest).take m.toNat)
    specSmallAddVecAux fuel { s2 with adds_until_propagate := s2.adds_until_propagate - m }
      ((x :: y :: rest).drop m.toNat)

/-- Modelled from the spec: `small_add_vector(v, n)` as described in
§4.2 of the specification (see `specSmallAddVecAux`). -/
def specSmallAddVec (s : SmallAcc) (vec : List ℕ) : SmallAcc :=
  specSmallAddVecAux vec.length s vec

/-- A run of scalar adds that fits the remaining-adds budget performs no
carry propagation: it is one batched `add_no_carry` run plus a counter
decrement by the run length. -/
theorem foldl_smallAdd_no_prop : ∀ (l : List ℕ) (s : SmallAcc),
    (l.length : ℤ) ≤ s.adds_until_propagate →
    l.foldl smallAdd s =
      { add_no_carry_run s l with
        adds_until_propagate := s.adds_until_propagate - l.length } := by
  intro l
  induction l with
  | nil =>
    intro s _
    refine SmallAcc_eq_of _ _ rfl rfl rfl ?_
    show s.adds_until_propagate = s.adds_until_propagate - ((0 : ℕ) : ℤ)
    push_cast
    ring
  | cons x t ih =>
    intro s h
    simp only [List.length_cons] at h
    push_cast at h
    have hne : s.adds_until_propagate ≠ 0 := by omega
    have hstep : smallAdd s x =
        { add_no_carry s x with
          adds_until_propagate := s.adds_until_propagate - 1 } := by
      unfold smallAdd
      rw [if_neg hne]
      refine SmallAcc_eq_of _ _ rfl rfl rfl ?_
      show (add_no_carry s x).adds_until_propagate - 1 = s.adds_until_propagate - 1
      rw [aup_add_no_carry]
    show List.foldl smallAdd (smallAdd s x) t = _
    rw [hstep]
    have hsetaup : ({ add_no_carry s x with
        adds_until_propagate := s.adds_until_propagate - 1 } : SmallAcc) =
        { (add_no_carry s x) with
          adds_until_propagate := s.adds_until_propagate - 1 } := rfl
    rw [ih _ (by rw [show ({ add_no_carry s x with
          adds_until_propagate := s.adds_until_propagate - 1 } : SmallAcc).adds_until_propagate =
          s.adds_until_propagate - 1 from rfl]; omega)]
    rw [add_no_carry_run_set_aup]
    refine SmallAcc_eq_of _ _ rfl rfl rfl ?_
    show s.adds_until_propagate - 1 - (t.length : ℤ) =
      s.adds_until_propagate - ((x :: t).length : ℤ)
    simp only [List.length_cons]
    push_cast
    ring

/-- When the counter is zero, the first scalar add starts by
propagating, so folding from `s` equals folding from the propagated
state. -/
theorem foldl_smallAdd_prop_first (s : SmallAcc) (x : ℕ) (t : List ℕ)
    (h : s.adds_until_propagate = 0) :
    (x :: t).foldl smallAdd s = (x :: t).foldl smallAdd (carry_propagate s).1 := by
  have h1 : smallAdd s x = smallAdd (carry_propagate s).1 x := by
    unfold smallAdd
    rw [if_pos h, if_neg (by
      rw [aup_carry_propagate]
      unfold XSUM_SMALL_CARRY_TERMS
      norm_num)]
  show List.foldl smallAdd (smallAdd s x) t =
    List.foldl smallAdd (smallAdd (carry_propagate s).1 x) t
  rw [h1]

theorem specSmallAddVecAux_eq_foldl : ∀ (fuel : ℕ) (vec : List ℕ) (s : SmallAcc),
    vec.length ≤ fuel + 1 → 0 ≤ s.adds_until_propagate →
    specSmallAddVecAux fuel s vec = vec.foldl smallAdd s := by
  intro fuel
  induction fuel with
  | zero =>
    intro vec s hlen _
    match vec with
    | [] => rfl
    | [x] => rfl
  | succ fuel ih =>
    intro vec s hlen haup
    match vec with
    | [] => rfl
    | [x] => rfl
    | x :: y :: rest =>
      rw [specSmallAddVecAux]
      set s1 : SmallAcc := if s.adds_until_propagate = 0 then (carry_propagate s).1 else s
        with hs1
      have haup1 : 1 ≤ s1.adds_until_propagate := by
        rw [hs1]
        split
        · rw [aup_carry_propagate]
          unfold XSUM_SMALL_CARRY_TERMS
          norm_num
        · omega
      set c : ℤ := ((x :: y :: rest).length : ℤ) with hcdef
      have hc2 : 2 ≤ c := by
        rw [hcdef]
        simp only [List.length_cons]
        push_cast
        omega
      set m : ℤ := min (c - 1) s1.adds_until_propagate with hmdef
      have hm1 : 1 ≤ m := by
        rw [hmdef]
        omega
      have hmc : m ≤ c - 1 := by
        rw [hmdef]
        omega
      have hmaup : m ≤ s1.adds_until_propagate := by
        rw [hmdef]
        omega
      have hmtoNat : (m.toNat : ℤ) = m := Int.toNat_of_nonneg (by omega)
      have hmlen : m.toNat ≤ (x :: y :: rest).length := by
        have : ((x :: y :: rest).length : ℤ) = c := by rw [hcdef]
        omega
      have htakelen : ((((x :: y :: rest).take m.toNat).length : ℕ) : ℤ) = m := by
        rw [List.length_take, min_eq_left hmlen]
        exact hmtoNat
      -- the run of m values equals m scalar adds
      have hrun := foldl_smallAdd_no_prop ((x :: y :: rest).take m.toNat) s1
        (by rw [htakelen]; exact hmaup)
      -- rewrite the right-hand side through the propagated state and the
      -- take/drop split
      have hsplit : (x :: y :: rest).foldl smallAdd s =
          ((x :: y :: rest).drop m.toNat).foldl smallAdd
            (((x :: y :: rest).take m.toNat).foldl smallAdd s1) := by
        have hstart : (x :: y :: rest).foldl smallAdd s = (x :: y :: rest).foldl smallAdd s1 := by
          rw [hs1]
          split
          · next hz => exact foldl_smallAdd_prop_first s x (y :: rest) hz
          · rfl
        rw [hstart, ← List.foldl_append, List.take_append_drop]
      rw [hsplit, hrun]
      -- apply the induction hypothesis to the dropped suffix
      have hauprun : 0 ≤ (({ add_no_carry_run s1 ((x :: y :: rest).take m.toNat) with
          adds_until_propagate :=
            (add_no_carry_run s1 ((x :: y :: rest).take m.toNat)).adds_until_propagate - m } :
            SmallAcc)).adds_until_propagate := by
        show 0 ≤ (add_no_carry_run s1 ((x :: y :: rest).take m.toNat)).adds_until_propagate - m
        rw [aup_add_no_carry_run]
        omega
      have hdroplen : ((x :: y :: rest).drop m.toNat).length ≤ fuel + 1 := by
        rw [List.length_drop]
        simp only [List.length_cons] at hlen ⊢
        omega
      rw [ih _ _ hdroplen hauprun]
      -- the two start states agree
      have hstate : ({ add_no_carry_run s1 ((x :: y :: rest).take m.toNat) with
          adds_until_propagate :=
            (add_no_carry_run s1 ((x :: y :: rest).take m.toNat)).adds_until_propagate - m } :
            SmallAcc) =
          { add_no_carry_run s1 ((x :: y :: rest).take m.toNat) with
            adds_until_propagate :=
              s1.adds_until_propagate - ((x :: y :: rest).take m.toNat).length } := by
        refine SmallAcc_eq_of _ _ rfl rfl rfl ?_
        show (add_no_carry_run s1 ((x :: y :: rest).take m.toNat)).adds_until_propagate - m =
          s1.adds_until_propagate - (((x :: y :: rest).take m.toNat).length : ℤ)
        rw [aup_add_no_carry_run, htakelen]
      rw [hstate]

/-- Claim C7 (amended reading: extensional behavior): the source's
`xsum_small::add(vec, n)` is state-for-state equivalent to the batch
partitioning described by the spec — runs of length
`m = min(remaining - 1, adds_until_propagate)`, propagation whenever the
counter is 0, counter decremented by `m` per run, last value through the
single-value add path. -/
theorem claim_C7 (s : SmallAcc) (vec : List ℕ) (h : 0 ≤ s.adds_until_propagate) :
    specSmallAddVec s vec = smallAddVec s vec := by
  rw [smallAddVec_eq_foldl vec s h]
  exact specSmallAddVecAux_eq_foldl vec.length vec s (by omega) h

/-- Witness for C7 at a concrete input. -/
theorem claim_C7_witness :
    specSmallAddVec smallInit [4609434218613702656, 13839561654909534208, 1, 2, 3] =
      smallAddVec smallInit [4609434218613702656, 13839561654909534208, 1, 2, 3] :=
  claim_C7 smallInit _ (by norm_num [smallInit, XSUM_SMALL_CARRY_TERMS])


theorem Inf_carry_propagate (s : SmallAcc) : (carry_propagate s).1.Inf = s.Inf := by
  unfold carry_propagate
  rcases findTop s.chunk with _ | u
  · rfl
  · dsimp only
    rcases (cpLoop 150 s.chunk 0 u none).2 with _ | uix
    · rfl
    · rfl

theorem NaN_carry_propagate (s : SmallAcc) : (carry_propagate s).1.NaN = s.NaN := by
  unfold carry_propagate
  rcases findTop s.chunk with _ | u
  · rfl
  · dsimp only
    rcases (cpLoop 150 s.chunk 0 u none).2 with _ | uix
    · rfl
    · rfl

/-! ## Claim C6: the small + small merge -/

/-- Counterexample to claim C6 as stated: the chunk-wise addition
`chunk[i] += other.chunk[i]` does NOT happen "in every case regardless
of either accumulator's Inf or NaN flags".  Concretely, merging a donor
accumulator that carries an Inf flag and a nonzero chunk 0 into a fresh
accumulator leaves the recipient's chunk 0 at 0, not at the chunk-wise
sum 5. -/
theorem claim_C6_counterexample :
    (small_add_acc smallInit
      { chunk := fun i => if i = 0 then 5 else 0, Inf := 0x7FF0000000000000,
        NaN := 0, adds_until_propagate := 2046 }).chunk 0 = 0 ∧
    w64 (smallInit.chunk 0 +
      ({ chunk := fun i => if i = 0 then 5 else 0, Inf := 0x7FF0000000000000,
         NaN := 0, adds_until_propagate := 2046 } : SmallAcc).chunk 0) = 5 := by
  constructor
  · rfl
  · decide

theorem aup_add_no_carry_acc (sacc value : SmallAcc) :
    (add_no_carry_acc sacc value).adds_until_propagate = sacc.adds_until_propagate := by
  unfold add_no_carry_acc
  repeat' split
  all_goals rfl

/-- Claim C6, amended: `xsum_add(small, small)` propagates the
recipient's carries first if its counter ran out; the chunk-wise
addition `chunk[i] += other.chunk[i]` for `i ∈ [0, 67)` happens ONLY
when the other accumulator's Inf and NaN flags and the recipient's NaN
flag are all zero — if the other accumulator carries an Inf or a NaN
(or the recipient already holds a NaN), only the flags are merged and
the chunks are left unchanged; in every case the recipient's
`adds_until_propagate` is decremented by exactly 1. -/
theorem claim_C6_amended (sacc value : SmallAcc) :
    ((small_add_acc sacc value).adds_until_propagate =
      (if sacc.adds_until_propagate = 0 then (carry_propagate sacc).1 else sacc).adds_until_propagate
        - 1) ∧
    (value.Inf = 0 → value.NaN = 0 → sacc.NaN = 0 → ∀ i,
      (small_add_acc sacc value).chunk i =
        (if i < XSUM_SCHUNKS then
          w64 ((if sacc.adds_until_propagate = 0 then (carry_propagate sacc).1 else sacc).chunk i
            + value.chunk i)
         else
          (if sacc.adds_until_propagate = 0 then (carry_propagate sacc).1 else sacc).chunk i)) ∧
    (value.Inf ≠ 0 ∨ value.NaN ≠ 0 ∨ sacc.NaN ≠ 0 →
      (small_add_acc sacc value).chunk =
        (if sacc.adds_until_propagate = 0 then (carry_propagate sacc).1 else sacc).chunk) := by
  refine ⟨?_, ?_, ?_⟩
  · show (add_no_carry_acc _ value).adds_until_propagate - 1 = _
    rw [aup_add_no_carry_acc]
  · intro hvi hvn hsn i
    show (add_no_carry_acc (if sacc.adds_until_propagate = 0 then (carry_propagate sacc).1 else sacc)
      value).chunk i = _
    set s1 := if sacc.adds_until_propagate = 0 then (carry_propagate sacc).1 else sacc with hs1
    have hs1n : s1.NaN = 0 := by
      rw [hs1]
      split
      · rw [NaN_carry_propagate]
        exact hsn
      · exact hsn
    unfold add_no_carry_acc
    rw [if_neg (by simp [hvi]), if_neg (by simp [hvn, hs1n])]
  · intro hflag
    show (add_no_carry_acc (if sacc.adds_until_propagate = 0 then (carry_propagate sacc).1 else sacc)
      value).chunk = _
    set s1 := if sacc.adds_until_propagate = 0 then (carry_propagate sacc).1 else sacc with hs1
    have hs1n : s1.NaN = sacc.NaN := by
      rw [hs1]
      split
      · rw [NaN_carry_propagate]
      · rfl
    unfold add_no_carry_acc
    rcases ne_or_eq value.Inf 0 with hvi | hvi
    · rw [if_pos hvi]
      repeat' split
      all_goals rfl
    · rw [if_neg (by simp [hvi])]
      have : value.NaN ≠ 0 ∨ s1.NaN ≠ 0 := by
        rw [hs1n]
        tauto
      rw [if_pos this]
      repeat' split
      all_goals rfl

/-- Witness for C6 at concrete inputs: a finite-flagged donor is added
chunk-wise (index 3), and the counter drops by one. -/
theorem claim_C6_witness :
    (small_add_acc smallInit
      { chunk := fun i => if i = 3 then 7 else 0, Inf := 0, NaN := 0,
        adds_until_propagate := 2000 }).chunk 3 =
      (if 3 < XSUM_SCHUNKS then
        w64 ((if smallInit.adds_until_propagate = 0 then (carry_propagate smallInit).1
          else smallInit).chunk 3 +
          ({ chunk := fun i => if i = 3 then 7 else 0, Inf := 0, NaN := 0,
             adds_until_propagate := 2000 } : SmallAcc).chunk 3)
       else
        (if smallInit.adds_until_propagate = 0 then (carry_propagate smallInit).1
          else smallInit).chunk 3) :=
  (claim_C6_amended smallInit _).2.1 rfl rfl rfl 3

/-! ## Claim C8: `add_value_inf_nan` (special-or-condense dispatch) -/

/-- Counterexample to claim C8 as stated: the dispatch does not test
"the top 11 bits of the 12-bit index" (bits 1..11 of `ix`, i.e.
`ix / 2`); it tests the exponent field, the LOW 11 bits (`ix & 0x7FF`).
At `ix = 0x7FF` (+Inf bin) the top 11 bits are `0x3FF`, not all ones,
so the claim prescribes the condense-and-count path, but the code
routes to the flag handler and leaves the bin's count at -1 instead of
the condensed-then-decremented 4095.  Conversely at `ix = 0xFFE`
(negative bin with the largest finite exponent) the top 11 bits ARE all
ones, so the claim prescribes the flag route, but the code condenses
the bin and sets its count to 4095. -/
theorem claim_C8_counterexample :
    ((2047 / 2 : ℕ) ≠ 2047 ∧
      (large_add_value_inf_nan largeInit 2047 0x7FF0000000000000).count 2047 ≠
        (add_lchunk_to_small largeInit 2047).count 2047 - 1) ∧
    ((4094 / 2 : ℕ) = 2047 ∧
      (large_add_value_inf_nan largeInit 4094 0xFFE0000000000001).count 4094 ≠
        largeInit.count 4094) := by
  refine ⟨⟨by norm_num, ?_⟩, ⟨by norm_num, ?_⟩⟩
  · decide
  · decide

/-- Claim C8, amended: the special test is on the exponent field of the
index — its low 11 bits (`(ix & XSUM_EXP_MASK) == XSUM_EXP_MASK`).
When they are all ones, the bit pattern goes to the small accumulator's
Inf/NaN flag handler and the bin's chunk and count are untouched;
otherwise the bin is condensed into the small accumulator and then
`count[ix] -= 1` and `chunk[ix] += bit_pattern`. -/
theorem claim_C8_amended (l : LargeAcc) (ix uintv : ℕ) :
    (ix % 2 ^ 11 = XSUM_EXP_MASK →
      large_add_value_inf_nan l ix uintv =
        { l with sacc := add_inf_nan l.sacc (toIvalue uintv) }) ∧
    (ix % 2 ^ 11 ≠ XSUM_EXP_MASK →
      large_add_value_inf_nan l ix uintv =
        { add_lchunk_to_small l ix with
          count := upd (add_lchunk_to_small l ix).count ix
            ((add_lchunk_to_small l ix).count ix - 1),
          chunk := upd (add_lchunk_to_small l ix).chunk ix
            (((add_lchunk_to_small l ix).chunk ix + uintv) % 2 ^ 64) }) := by
  constructor
  · intro h
    unfold large_add_value_inf_nan
    rw [if_pos h]
  · intro h
    unfold large_add_value_inf_nan
    rw [if_neg h]

/-- Witness for C8 at concrete inputs (both arms). -/
theorem claim_C8_witness :
    large_add_value_inf_nan largeInit 2047 123 =
      { largeInit with sacc := add_inf_nan largeInit.sacc (toIvalue 123) } ∧
    large_add_value_inf_nan largeInit 10 123 =
      { add_lchunk_to_small largeInit 10 with
        count := upd (add_lchunk_to_small largeInit 10).count 10
          ((add_lchunk_to_small largeInit 10).count 10 - 1),
        chunk := upd (add_lchunk_to_small largeInit 10).chunk 10
          (((add_lchunk_to_small largeInit 10).chunk 10 + 123) % 2 ^ 64) } :=
  ⟨(claim_C8_amended largeInit 2047 123).1 (by norm_num [XSUM_EXP_MASK]),
   (claim_C8_amended largeInit 10 123).2 (by norm_num [XSUM_EXP_MASK])⟩

/-! ## Analysis of carry propagation -/

/-- The integer represented by the chunk array: `Σ chunk[i] · 2^(32 i)`
(the true value of the accumulator is this times `2^(-1075)`; the scale
factor is irrelevant to the lemmas below).  Index 67 is included so that
even the out-of-range model index is covered. -/
def sval (ch : ℕ → ℤ) : ℤ := ∑ j in Finset.range 68, ch j * 2 ^ (32 * j)

theorem sval_upd (ch : ℕ → ℤ) (i : ℕ) (v : ℤ) (hi : i < 68) :
    sval (upd ch i v) = sval ch + (v - ch i) * 2 ^ (32 * i) := by
  unfold sval
  have hmem : i ∈ Finset.range 68 := Finset.mem_range.mpr hi
  rw [← Finset.sum_erase_add _ _ hmem, ← Finset.sum_erase_add _ (fun j => ch j * 2 ^ (32 * j)) hmem]
  have hsame : ∀ j ∈ (Finset.range 68).erase i,
      upd ch i v j * 2 ^ (32 * j) = ch j * 2 ^ (32 * j) := by
    intro j hj
    rw [upd_other ch i j v (Finset.ne_of_mem_erase hj)]
  rw [Finset.sum_congr rfl hsame, upd_same]
  ring

/-- Digits below `k` that lie in `[0, 2^32)` sum to less than `2^(32 k)`. -/
theorem digits_sum_lt (ch : ℕ → ℤ) : ∀ (k : ℕ),
    (∀ j, j < k → 0 ≤ ch j ∧ ch j < 2 ^ 32) →
    0 ≤ ∑ j in Finset.range k, ch j * 2 ^ (32 * j) ∧
    ∑ j in Finset.range k, ch j * 2 ^ (32 * j) < 2 ^ (32 * k) := by
  intro k
  induction k with
  | zero =>
    intro _
    norm_num
  | succ k ih =>
    intro h
    obtain ⟨hlo, hhi⟩ := ih (fun j hj => h j (by omega))
    obtain ⟨hk0, hk1⟩ := h k (by omega)
    rw [Finset.sum_range_succ]
    constructor
    · have : 0 ≤ ch k * 2 ^ (32 * k) := by positivity
      omega
    · have h1 : ch k * 2 ^ (32 * k) ≤ (2 ^ 32 - 1) * 2 ^ (32 * k) := by
        apply mul_le_mul_of_nonneg_right (by omega) (by positivity)
      have h2 : (2 ^ 32 - 1 : ℤ) * 2 ^ (32 * k) + 2 ^ (32 * k) = 2 ^ (32 * (k + 1)) := by
        rw [show 32 * (k + 1) = 32 * k + 32 by ring, pow_add]
        ring
      omega

/-- A canonical chunk array with a nonzero top digit represents a
nonzero integer. -/
theorem sval_ne_zero_of_top (ch : ℕ → ℤ) (k : ℕ) (hk : k < 68)
    (htop : ch k ≠ 0) (htb : -(2 ^ 32) ≤ ch k ∧ ch k < 2 ^ 32)
    (hlow : ∀ j, j < k → 0 ≤ ch j ∧ ch j < 2 ^ 32)
    (hhigh : ∀ j, k < j → j ≤ 67 → ch j = 0) :
    sval ch ≠ 0 := by
  unfold sval
  have hsplit : ∑ j in Finset.range 68, ch j * 2 ^ (32 * j) =
      (∑ j in Finset.range k, ch j * 2 ^ (32 * j)) + ch k * 2 ^ (32 * k) := by
    have h68 : k + 1 ≤ 68 := by omega
    rw [← Finset.sum_range_add_sum_Ico _ h68, Finset.sum_range_succ]
    have : ∑ j in Finset.Ico (k + 1) 68, ch j * 2 ^ (32 * j) = 0 := by
      apply Finset.sum_eq_zero
      intro j hj
      rw [Finset.mem_Ico] at hj
      rw [hhigh j (by omega) (by omega)]
      ring
    omega
  rw [hsplit]
  obtain ⟨hl0, hl1⟩ := digits_sum_lt ch k hlow
  rcases lt_or_gt_of_ne htop with hneg | hpos
  · -- negative top: the whole value is negative
    have : ch k * 2 ^ (32 * k) ≤ -(2 ^ (32 * k)) := by
      have := mul_le_mul_of_nonneg_right (by omega : ch k ≤ -1) (by positivity : (0:ℤ) ≤ 2 ^ (32 * k))
      omega
    omega
  · -- positive top: the whole value is at least 2^(32 k)
    have : 2 ^ (32 * k) ≤ ch k * 2 ^ (32 * k) := by
      have := mul_le_mul_of_nonneg_right (by omega : 1 ≤ ch k) (by positivity : (0:ℤ) ≤ 2 ^ (32 * k))
      omega
    omega

/-- `findTopAux ch i` is the largest index `j ≤ i` with `ch j ≠ 0`. -/
theorem findTopAux_spec : ∀ (i : ℕ) (ch : ℕ → ℤ),
    (findTopAux ch i = none → ∀ j, j ≤ i → ch j = 0) ∧
    (∀ u, findTopAux ch i = some u →
      u ≤ i ∧ ch u ≠ 0 ∧ ∀ j, u < j → j ≤ i → ch j = 0) := by
  intro i
  induction i with
  | zero =>
    intro ch
    constructor
    · intro h j hj
      interval_cases j
      unfold findTopAux at h
      by_contra hne
      rw [if_pos hne] at h
      cases h
    · intro u hu
      unfold findTopAux at hu
      by_cases hz : ch 0 ≠ 0
      · rw [if_pos hz] at hu
        cases hu
        exact ⟨le_refl 0, hz, fun j h1 h2 => by omega⟩
      · rw [if_neg hz] at hu
        cases hu
  | succ i ih =>
    intro ch
    constructor
    · intro h j hj
      unfold findTopAux at h
      by_cases hz : ch (i + 1) ≠ 0
      · rw [if_pos hz] at h
        cases h
      · rw [if_neg hz] at h
        push_neg at hz
        rcases Nat.lt_or_ge j (i + 1) with hlt | hge
        · exact (ih ch).1 h j (by omega)
        · have : j = i + 1 := by omega
          rw [this]
          exact hz
    · intro u hu
      unfold findTopAux at hu
      by_cases hz : ch (i + 1) ≠ 0
      · rw [if_pos hz] at hu
        cases hu
        exact ⟨le_refl _, hz, fun j h1 h2 => by omega⟩
      · rw [if_neg hz] at hu
        push_neg at hz
        obtain ⟨h1, h2, h3⟩ := (ih ch).2 u hu
        refine ⟨by omega, h2, ?_⟩
        intro j hj1 hj2
        rcases Nat.lt_or_ge j (i + 1) with hlt | hge
        · exact h3 j hj1 (by omega)
        · have : j = i + 1 := by omega
          rw [this]
          exact hz

/-- Loop invariant of `cpLoop` (the main carry-propagation loop), with
`utop` an upper limit for the loop bound `u` (67 in general — the model
index one past the array — or 66 when the top in-range chunk is known to
be small, in which case the loop never leaves the array). -/
structure CPInv (utop : ℕ) (ch : ℕ → ℤ) (i u : ℕ) (uix : Option ℕ) : Prop where
  hiu : i ≤ u + 1
  huc : u ≤ utop
  hcap : utop ≤ 67
  htopz : ∀ j, u < j → j ≤ 67 → ch j = 0
  hhz : ∀ j, 68 ≤ j → ch j = 0
  hproc : ∀ j, j < i → 0 ≤ ch j ∧ ch j < 2 ^ 32
  huixn : uix = none → ∀ j, j < i → ch j = 0
  huixs : ∀ k, uix = some k → k < i ∧ ch k ≠ 0 ∧ ∀ j, k < j → j < i → ch j = 0
  hbnd : ∀ j, i < j → -(2 ^ 63 - 2 ^ 32) ≤ ch j ∧ ch j ≤ 2 ^ 63 - 2 ^ 32
  hbndi : -(2 ^ 63 - 2 ^ 31) ≤ ch i ∧ ch i ≤ 2 ^ 63 - 2 ^ 31
  hcapv1 : i < utop → -(2 ^ 31) ≤ ch utop ∧ ch utop < 2 ^ 31
  hcapv2 : i = utop → -(2 ^ 32) ≤ ch utop ∧ ch utop < 2 ^ 32

/-- Postcondition of `cpLoop`: value preserved, parity of chunk 0
preserved, chunks above `utop` untouched, and the returned witness is
the top of a canonical digit string (or the number is zero). -/
structure CPPost (utop : ℕ) (ch ch' : ℕ → ℤ) (uix' : Option ℕ) : Prop where
  hsval : sval ch' = sval ch
  hpar : ch' 0 % 2 = ch 0 % 2
  hframe : ∀ j, utop + 1 ≤ j → ch' j = ch j
  hzero : uix' = none → ∀ j, j ≤ 67 → ch' j = 0
  hsome : ∀ k, uix' = some k → k ≤ utop ∧ ch' k ≠ 0 ∧
    (-(2 ^ 32) ≤ ch' k ∧ ch' k < 2 ^ 32) ∧
    (∀ j, j < k → 0 ≤ ch' j ∧ ch' j < 2 ^ 32) ∧
    (∀ j, k < j → j ≤ 67 → ch' j = 0)

/-- Specification of the -1-normalization loop: starting from a
canonical digit string whose top digit `t` is nonzero and in
`[-2^32, 2^32)`, it preserves the value, the parity of chunk 0, and the
canonical shape, and additionally guarantees the final top digit is not
-1 unless it sits at index 0. -/
theorem negOneLoop_spec : ∀ (t : ℕ) (ch : ℕ → ℤ),
    t ≤ 67 →
    (∀ j, j < t → 0 ≤ ch j ∧ ch j < 2 ^ 32) →
    (-(2 ^ 32) ≤ ch t ∧ ch t < 2 ^ 32) →
    ch t ≠ 0 →
    (∀ j, t < j → ch j = 0) →
    (negOneLoop ch t).2 ≤ t ∧
    sval (negOneLoop ch t).1 = sval ch ∧
    ((negOneLoop ch t).1 0 % 2 = ch 0 % 2) ∧
    ((negOneLoop ch t).1 (negOneLoop ch t).2 ≠ 0) ∧
    (-(2 ^ 32) ≤ (negOneLoop ch t).1 (negOneLoop ch t).2 ∧
      (negOneLoop ch t).1 (negOneLoop ch t).2 < 2 ^ 32) ∧
    (1 ≤ (negOneLoop ch t).2 → (negOneLoop ch t).1 (negOneLoop ch t).2 ≠ -1) ∧
    (∀ j, j < (negOneLoop ch t).2 → 0 ≤ (negOneLoop ch t).1 j ∧ (negOneLoop ch t).1 j < 2 ^ 32) ∧
    (∀ j, (negOneLoop ch t).2 < j → (negOneLoop ch t).1 j = 0) := by
  intro t
  induction t with
  | zero =>
    intro ch ht hlow hb hnz hhigh
    refine ⟨le_refl 0, rfl, rfl, hnz, hb, ?_, ?_, ?_⟩
    · intro h
      rw [show (negOneLoop ch 0).2 = 0 from rfl] at h
      omega
    · intro j hj
      rw [show (negOneLoop ch 0).2 = 0 from rfl] at hj
      omega
    · intro j hj
      exact hhigh j hj
  | succ t ih =>
    intro ch ht hlow hb hnz hhigh
    rw [negOneLoop]
    by_cases hm1 : ch (t + 1) = -1
    · rw [if_pos hm1]
      set ch2 := upd (upd ch (t + 1) 0) t (w64 (ch t + -(2 ^ 32))) with hch2
      have hcht : 0 ≤ ch t ∧ ch t < 2 ^ 32 := hlow t (by omega)
      have hw : w64 (ch t + -(2 ^ 32)) = ch t + -(2 ^ 32) := by
        apply w64_eq_self
        · omega
        · omega
      have h2low : ∀ j, j < t → 0 ≤ ch2 j ∧ ch2 j < 2 ^ 32 := by
        intro j hj
        rw [hch2, upd_other _ _ _ _ (by omega), upd_other _ _ _ _ (by omega)]
        exact hlow j (by omega)
      have h2t : ch2 t = ch t + -(2 ^ 32) := by
        rw [hch2, upd_same, hw]
      have h2b : -(2 ^ 32) ≤ ch2 t ∧ ch2 t < 2 ^ 32 := by
        rw [h2t]
        omega
      have h2nz : ch2 t ≠ 0 := by
        rw [h2t]
        omega
      have h2high : ∀ j, t < j → ch2 j = 0 := by
        intro j hj
        rcases Nat.lt_or_ge j (t + 2) with hl | hg
        · have hje : j = t + 1 := by omega
          subst hje
          rw [hch2, upd_other _ _ _ _ (by omega), upd_same]
        · rw [hch2, upd_other _ _ _ _ (by omega), upd_other _ _ _ _ (by omega)]
          exact hhigh j (by omega)
      obtain ⟨p1, p2, p3, p4, p5, p6, p7, p8⟩ :=
        ih ch2 (by omega) h2low h2b h2nz h2high
      refine ⟨by omega, ?_, ?_, p4, p5, p6, p7, p8⟩
      · rw [p2, hch2]
        rw [sval_upd _ _ _ (by omega), sval_upd _ _ _ (by omega)]
        rw [upd_other _ _ _ _ (by omega), hw, hm1]
        have : (32 : ℕ) * (t + 1) = 32 * t + 32 := by ring
        rw [this, pow_add]
        ring
      · rw [p3, hch2]
        rcases Nat.eq_zero_or_pos t with ht0 | htp
        · subst ht0
          rw [upd_same, hw]
          omega
        · rw [upd_other _ _ _ _ (by omega), upd_other _ _ _ _ (by omega)]
    · rw [if_neg hm1]
      refine ⟨le_refl _, rfl, rfl, hnz, hb, fun _ => hm1, hlow, ?_⟩
      intro j hj
      exact hhigh j hj

/-- Exit of the carry-propagation loop: once the loop index has passed
`u`, the invariant alone yields the postcondition (with the chunk map
unchanged). -/
theorem cpExit (utop : ℕ) (ch : ℕ → ℤ) (i u : ℕ) (uix : Option ℕ)
    (hinv : CPInv utop ch i u uix) (hiu : u < i) :
    CPPost utop ch ch uix := by
  have h1 := hinv.hiu
  have h2 := hinv.huc
  refine ⟨rfl, rfl, fun j hj => rfl, ?_, ?_⟩
  · intro h j hj
    rcases Nat.lt_or_ge j i with hlt | hge
    · exact hinv.huixn h j hlt
    · exact hinv.htopz j (by omega) hj
  · intro k hk
    obtain ⟨hk1, hk2, hk3⟩ := hinv.huixs k hk
    obtain ⟨hkp1, hkp2⟩ := hinv.hproc k hk1
    refine ⟨by omega, hk2, by omega, fun j hj => hinv.hproc j (by omega), ?_⟩
    intro j hj1 hj2
    rcases Nat.lt_or_ge j i with hlt | hge
    · exact hk3 j hj1 hlt
    · exact hinv.htopz j (by omega) hj2

/-- Main carry-propagation loop correctness: from the invariant and
sufficient fuel, the loop establishes the postcondition (value and
parity preserved, frame above `utop`, canonical digit string below the
returned witness index). -/
theorem cpLoop_spec : ∀ (fuel utop : ℕ) (ch : ℕ → ℤ) (i u : ℕ) (uix : Option ℕ),
    CPInv utop ch i u uix → 135 ≤ fuel + u + i →
    CPPost utop ch (cpLoop fuel ch i u uix).1 (cpLoop fuel ch i u uix).2 := by
  intro fuel
  induction fuel with
  | zero =>
    intro utop ch i u uix hinv hfuel
    have h2 := hinv.hcap
    have h3 := hinv.huc
    exact cpExit utop ch i u uix hinv (by omega)
  | succ fuel ih =>
    intro utop ch i u uix hinv hfuel
    by_cases hgt : i > u
    · have hrw : cpLoop (fuel + 1) ch i u uix = (ch, uix) := by
        simp only [cpLoop]
        rw [if_pos hgt]
      rw [hrw]
      exact cpExit utop ch i u uix hinv hgt
    · have hle : i ≤ u := by omega
      by_cases hc0 : ch i = 0
      · have hrw : cpLoop (fuel + 1) ch i u uix = cpLoop fuel ch (i + 1) u uix := by
          simp only [cpLoop]
          rw [if_neg hgt, if_pos hc0]
        rw [hrw]
        refine ih utop ch (i + 1) u uix
          ⟨by omega, hinv.huc, hinv.hcap, hinv.htopz, hinv.hhz, ?_, ?_, ?_, ?_, ?_, ?_, ?_⟩ (by omega)
        · intro j hj
          rcases Nat.lt_or_ge j i with hlt | hge
          · exact hinv.hproc j hlt
          · have hje : j = i := by omega
            subst hje
            rw [hc0]
            omega
        · intro h j hj
          rcases Nat.lt_or_ge j i with hlt | hge
          · exact hinv.huixn h j hlt
          · have hje : j = i := by omega
            subst hje
            exact hc0
        · intro k hk
          obtain ⟨hk1, hk2, hk3⟩ := hinv.huixs k hk
          refine ⟨by omega, hk2, ?_⟩
          intro j hj1 hj2
          rcases Nat.lt_or_ge j i with hlt | hge
          · exact hk3 j hj1 hlt
          · have hje : j = i := by omega
            subst hje
            exact hc0
        · intro j hj
          exact hinv.hbnd j (by omega)
        · obtain ⟨hb1, hb2⟩ := hinv.hbnd (i + 1) (by omega)
          constructor <;> omega
        · intro hlt
          exact hinv.hcapv1 (by omega)
        · intro heq
          obtain ⟨hv1, hv2⟩ := hinv.hcapv1 (by omega)
          constructor <;> omega
      · by_cases hh0 : ch i / 2 ^ 32 = 0
        · have hrw : cpLoop (fuel + 1) ch i u uix = cpLoop fuel ch (i + 1) u (some i) := by
            simp only [cpLoop]
            rw [if_neg hgt, if_neg hc0, if_pos hh0]
          rw [hrw]
          have hri : 0 ≤ ch i ∧ ch i < 2 ^ 32 := by omega
          refine ih utop ch (i + 1) u (some i)
            ⟨by omega, hinv.huc, hinv.hcap, hinv.htopz, hinv.hhz, ?_, ?_, ?_, ?_, ?_, ?_, ?_⟩ (by omega)
          · intro j hj
            rcases Nat.lt_or_ge j i with hlt | hge
            · exact hinv.hproc j hlt
            · have hje : j = i := by omega
              subst hje
              exact hri
          · intro h
            exact Option.noConfusion h
          · intro k hk
            have hki : i = k := Option.some.inj hk
            subst hki
            exact ⟨by omega, hc0, fun j hj1 hj2 => by omega⟩
          · intro j hj
            exact hinv.hbnd j (by omega)
          · obtain ⟨hb1, hb2⟩ := hinv.hbnd (i + 1) (by omega)
            constructor <;> omega
          · intro hlt
            exact hinv.hcapv1 (by omega)
          · intro heq
            obtain ⟨hv1, hv2⟩ := hinv.hcapv1 (by omega)
            constructor <;> omega
        · by_cases hui : u = i ∧ ch i / 2 ^ 32 = -1
          · have hrw : cpLoop (fuel + 1) ch i u uix = (ch, some i) := by
              simp only [cpLoop]
              rw [if_neg hgt, if_neg hc0, if_neg hh0, if_pos hui]
            rw [hrw]
            show CPPost utop ch ch (some i)
            obtain ⟨hue, hm1⟩ := hui
            have hcap := hinv.hcap
            have huc := hinv.huc
            refine ⟨rfl, rfl, fun j hj => rfl, ?_, ?_⟩
            · intro h
              exact Option.noConfusion h
            · intro k hk
              have hki : i = k := Option.some.inj hk
              subst hki
              refine ⟨by omega, hc0, by omega, fun j hj => hinv.hproc j (by omega), ?_⟩
              intro j hj1 hj2
              exact hinv.htopz j (by omega) hj2
          · have hrw : cpLoop (fuel + 1) ch i u uix =
                cpLoop fuel
                  (upd (upd ch i (ch i % 2 ^ 32)) (i + 1) (w64 (ch (i + 1) + ch i / 2 ^ 32)))
                  (i + 1) (if u = i then i + 1 else u)
                  (if ch i % 2 ^ 32 ≠ 0 then some i else uix) := by
              simp only [cpLoop]
              rw [if_neg hgt, if_neg hc0, if_neg hh0, if_neg hui]
            rw [hrw]
            have hcap := hinv.hcap
            have huc := hinv.huc
            have hilt : i < utop := by
              rcases Nat.lt_or_ge i utop with h | h
              · exact h
              · exfalso
                have hieq : i = utop := by omega
                have hue : u = i := by omega
                obtain ⟨hv1, hv2⟩ := hinv.hcapv2 hieq
                rw [← hieq] at hv1 hv2
                have hd : ch i / 2 ^ 32 = -1 ∨ ch i / 2 ^ 32 = 0 := by omega
                rcases hd with hd1 | hd1
                · exact hui ⟨hue, hd1⟩
                · exact hh0 hd1
            obtain ⟨hbi1, hbi2⟩ := hinv.hbndi
            obtain ⟨hn1, hn2⟩ := hinv.hbnd (i + 1) (by omega)
            have hch : -(2 ^ 31) ≤ ch i / 2 ^ 32 ∧ ch i / 2 ^ 32 ≤ 2 ^ 31 - 1 := by omega
            have hw : w64 (ch (i + 1) + ch i / 2 ^ 32) = ch (i + 1) + ch i / 2 ^ 32 := by
              apply w64_eq_self <;> omega
            set ch2 := upd (upd ch i (ch i % 2 ^ 32)) (i + 1) (w64 (ch (i + 1) + ch i / 2 ^ 32)) with hch2
            have h2i : ch2 i = ch i % 2 ^ 32 := by
              rw [hch2, upd_other _ _ _ _ (by omega), upd_same]
            have h2i1 : ch2 (i + 1) = ch (i + 1) + ch i / 2 ^ 32 := by
              rw [hch2, upd_same, hw]
            have h2o : ∀ j, j ≠ i → j ≠ i + 1 → ch2 j = ch j := by
              intro j hj1 hj2
              rw [hch2, upd_other _ _ _ _ hj2, upd_other _ _ _ _ hj1]
            have hu1 : u ≤ (if u = i then i + 1 else u) := by split <;> omega
            have hu2 : (if u = i then i + 1 else u) ≤ utop := by split <;> omega
            have hu4 : i + 1 ≤ (if u = i then i + 1 else u) := by split <;> omega
            have hsv : sval ch2 = sval ch := by
              rw [hch2, sval_upd _ _ _ (by omega), sval_upd _ _ _ (by omega),
                upd_other _ _ _ _ (by omega), hw]
              have he : ch i % 2 ^ 32 - ch i = -(2 ^ 32) * (ch i / 2 ^ 32) := by omega
              rw [he, show 32 * (i + 1) = 32 * i + 32 by ring, pow_add]
              ring
            have hp0 : ch2 0 % 2 = ch 0 % 2 := by
              rcases Nat.eq_zero_or_pos i with h0 | h0
              · rw [hch2, upd_other _ _ _ _ (by omega), h0, upd_same]
                omega
              · rw [h2o 0 (by omega) (by omega)]
            have hinv2 : CPInv utop ch2 (i + 1) (if u = i then i + 1 else u)
                (if ch i % 2 ^ 32 ≠ 0 then some i else uix) := by
              refine ⟨by omega, hu2, hcap, ?_, ?_, ?_, ?_, ?_, ?_, ?_, ?_, ?_⟩
              · intro j hj1 hj2
                rw [h2o j (by omega) (by omega)]
                exact hinv.htopz j (by omega) hj2
              · intro j hj
                rw [h2o j (by omega) (by omega)]
                exact hinv.hhz j hj
              · intro j hj
                rcases Nat.lt_or_ge j i with hlt | hge
                · rw [h2o j (by omega) (by omega)]
                  exact hinv.hproc j hlt
                · have hje : j = i := by omega
                  subst hje
                  rw [h2i]
                  omega
              · intro h
                by_cases hcl : ch i % 2 ^ 32 ≠ 0
                · rw [if_pos hcl] at h
                  exact Option.noConfusion h
                · rw [if_neg hcl] at h
                  push_neg at hcl
                  intro j hj
                  rcases Nat.lt_or_ge j i with hlt | hge
                  · rw [h2o j (by omega) (by omega)]
                    exact hinv.huixn h j hlt
                  · have hje : j = i := by omega
                    subst hje
                    rw [h2i]
                    exact hcl
              · intro k hk
                by_cases hcl : ch i % 2 ^ 32 ≠ 0
                · rw [if_pos hcl] at hk
                  have hki : i = k := Option.some.inj hk
                  subst hki
                  refine ⟨by omega, ?_, fun j hj1 hj2 => by omega⟩
                  rw [h2i]
                  exact hcl
                · rw [if_neg hcl] at hk
                  push_neg at hcl
                  obtain ⟨hk1, hk2, hk3⟩ := hinv.huixs k hk
                  refine ⟨by omega, ?_, ?_⟩
                  · rw [h2o k (by omega) (by omega)]
                    exact hk2
                  · intro j hj1 hj2
                    rcases Nat.lt_or_ge j i with hlt | hge
                    · rw [h2o j (by omega) (by omega)]
                      exact hk3 j hj1 hlt
                    · have hje : j = i := by omega
                      subst hje
                      rw [h2i]
                      exact hcl
              · intro j hj
                rw [h2o j (by omega) (by omega)]
                exact hinv.hbnd j (by omega)
              · rw [h2i1]
                constructor <;> omega
              · intro hlt
                rw [h2o utop (by omega) (by omega)]
                exact hinv.hcapv1 hilt
              · intro heq
                obtain ⟨hv1, hv2⟩ := hinv.hcapv1 hilt
                rw [← heq] at hv1 hv2 ⊢
                rw [h2i1]
                constructor <;> omega
            obtain ⟨q1, q2, q3, q4, q5⟩ := ih utop ch2 (i + 1) (if u = i then i + 1 else u)
              (if ch i % 2 ^ 32 ≠ 0 then some i else uix) hinv2 (by omega)
            refine ⟨q1.trans hsv, q2.trans hp0, ?_, q4, q5⟩
            intro j hj
            rw [q3 j hj, h2o j (by omega) (by omega)]

/-- Reduction of `carry_propagate` when the accumulator is zero (no
nonzero chunk found). -/
theorem carry_propagate_none (s : SmallAcc) (h : findTop s.chunk = none) :
    carry_propagate s = ({ s with adds_until_propagate := XSUM_SMALL_CARRY_TERMS - 1 }, 0) := by
  unfold carry_propagate
  rw [h]

/-- Reduction of `carry_propagate` when a nonzero chunk exists. -/
theorem carry_propagate_some (s : SmallAcc) (u : ℕ) (h : findTop s.chunk = some u) :
    carry_propagate s =
      (match (cpLoop 150 s.chunk 0 u none).2 with
       | none =>
         ({ s with
              chunk := (cpLoop 150 s.chunk 0 u none).1,
              adds_until_propagate := XSUM_SMALL_CARRY_TERMS - 1 }, 0)
       | some uix =>
         ({ s with
              chunk := (negOneLoop (cpLoop 150 s.chunk 0 u none).1 uix).1,
              adds_until_propagate := XSUM_SMALL_CARRY_TERMS - 1 },
          (negOneLoop (cpLoop 150 s.chunk 0 u none).1 uix).2)) := by
  unfold carry_propagate
  rw [h]

/-- States on which carry propagation is analysed: the model chunks at
and beyond index 67 are zero (the source array has no such entries) and
every chunk is within the slack the accumulator design keeps between
propagations. -/
def Propagatable (s : SmallAcc) : Prop :=
  (∀ j, 67 ≤ j → s.chunk j = 0) ∧
  (∀ j, -(2 ^ 63 - 2 ^ 32) ≤ s.chunk j ∧ s.chunk j ≤ 2 ^ 63 - 2 ^ 32)

/-- Full correctness of `carry_propagate` on a propagatable state:
flags untouched, counter reset to 2046, represented value preserved,
chunks at index 68 and beyond untouched; a zero accumulator yields index
0 and an all-zero chunk array, and a nonzero one yields the canonical
digit string of the value with the returned index pointing at its
nonzero top (which is not -1 unless it sits at index 0). -/
theorem carry_propagate_spec (s : SmallAcc) (hp : Propagatable s) :
    (carry_propagate s).1.Inf = s.Inf ∧
    (carry_propagate s).1.NaN = s.NaN ∧
    (carry_propagate s).1.adds_until_propagate = 2046 ∧
    (carry_propagate s).2 ≤ 67 ∧
    sval (carry_propagate s).1.chunk = sval s.chunk ∧
    (carry_propagate s).1.chunk 0 % 2 = s.chunk 0 % 2 ∧
    (∀ j, 68 ≤ j → (carry_propagate s).1.chunk j = s.chunk j) ∧
    (sval s.chunk = 0 → (carry_propagate s).2 = 0 ∧ ∀ j, (carry_propagate s).1.chunk j = 0) ∧
    (sval s.chunk ≠ 0 →
      (carry_propagate s).1.chunk (carry_propagate s).2 ≠ 0 ∧
      (-(2 ^ 32) ≤ (carry_propagate s).1.chunk (carry_propagate s).2 ∧
        (carry_propagate s).1.chunk (carry_propagate s).2 < 2 ^ 32) ∧
      (1 ≤ (carry_propagate s).2 → (carry_propagate s).1.chunk (carry_propagate s).2 ≠ -1) ∧
      (∀ j, j < (carry_propagate s).2 →
        0 ≤ (carry_propagate s).1.chunk j ∧ (carry_propagate s).1.chunk j < 2 ^ 32) ∧
      (∀ j, (carry_propagate s).2 < j → (carry_propagate s).1.chunk j = 0)) := by
  obtain ⟨h1, h2⟩ := hp
  rcases hft : findTop s.chunk with _ | u
  · -- the accumulator is zero
    have hz : ∀ j, s.chunk j = 0 := by
      intro j
      rcases Nat.lt_or_ge j 67 with hj | hj
      · exact (findTopAux_spec 66 s.chunk).1 hft j (by omega)
      · exact h1 j hj
    have hs0 : sval s.chunk = 0 := by
      unfold sval
      apply Finset.sum_eq_zero
      intro j _
      rw [hz j]
      ring
    rw [carry_propagate_none s hft]
    refine ⟨rfl, rfl, ?_, ?_, rfl, rfl, fun j hj => rfl, fun _ => ⟨rfl, hz⟩, fun hne => absurd hs0 hne⟩
    · show XSUM_SMALL_CARRY_TERMS - 1 = 2046
      norm_num [XSUM_SMALL_CARRY_TERMS]
    · show (0 : ℕ) ≤ 67
      omega
  · -- a nonzero chunk exists: run the main loop
    obtain ⟨hu1, hu2, hu3⟩ := (findTopAux_spec 66 s.chunk).2 u hft
    have hinv : CPInv 67 s.chunk 0 u none := by
      refine ⟨by omega, by omega, by omega, ?_, ?_, ?_, ?_, ?_, ?_, ?_, ?_, ?_⟩
      · intro j hj1 hj2
        rcases Nat.lt_or_ge j 67 with hj | hj
        · exact hu3 j hj1 (by omega)
        · exact h1 j hj
      · intro j hj
        exact h1 j (by omega)
      · intro j hj
        omega
      · intro _ j hj
        omega
      · intro k hk
        exact Option.noConfusion hk
      · intro j hj
        exact h2 j
      · obtain ⟨hb1, hb2⟩ := h2 0
        constructor <;> omega
      · intro _
        rw [h1 67 (by omega)]
        constructor <;> norm_num
      · intro h
        omega
    obtain ⟨q1, q2, q3, q4, q5⟩ := cpLoop_spec 150 67 s.chunk 0 u none hinv (by omega)
    rcases hres : (cpLoop 150 s.chunk 0 u none).2 with _ | uix
    · -- the loop found no nonzero chunk: the value is zero
      have hcp : carry_propagate s =
          ({ s with
               chunk := (cpLoop 150 s.chunk 0 u none).1,
               adds_until_propagate := XSUM_SMALL_CARRY_TERMS - 1 }, 0) := by
        rw [carry_propagate_some s u hft, hres]
      have hzk : ∀ j, (cpLoop 150 s.chunk 0 u none).1 j = 0 := by
        intro j
        rcases Nat.lt_or_ge j 68 with hj | hj
        · exact q4 hres j (by omega)
        · rw [q3 j (by omega)]
          exact h1 j (by omega)
      have hs0 : sval s.chunk = 0 := by
        rw [← q1]
        unfold sval
        apply Finset.sum_eq_zero
        intro j _
        rw [hzk j]
        ring
      rw [hcp]
      refine ⟨rfl, rfl, ?_, ?_, q1, q2, fun j hj => q3 j (by omega),
        fun _ => ⟨rfl, hzk⟩, fun hne => absurd hs0 hne⟩
      · show XSUM_SMALL_CARRY_TERMS - 1 = 2046
        norm_num [XSUM_SMALL_CARRY_TERMS]
      · show (0 : ℕ) ≤ 67
        omega
    · -- the loop returned a nonzero top: normalize -1 tops
      have hcp : carry_propagate s =
          ({ s with
               chunk := (negOneLoop (cpLoop 150 s.chunk 0 u none).1 uix).1,
               adds_until_propagate := XSUM_SMALL_CARRY_TERMS - 1 },
           (negOneLoop (cpLoop 150 s.chunk 0 u none).1 uix).2) := by
        rw [carry_propagate_some s u hft, hres]
      obtain ⟨r1, r2, r3, r4, r5⟩ := q5 uix hres
      have hhigh : ∀ j, uix < j → (cpLoop 150 s.chunk 0 u none).1 j = 0 := by
        intro j hj
        rcases Nat.lt_or_ge j 68 with hjl | hjl
        · exact r5 j hj (by omega)
        · rw [q3 j (by omega)]
          exact h1 j (by omega)
      obtain ⟨p1, p2, p3, p4, p5, p6, p7, p8⟩ :=
        negOneLoop_spec uix (cpLoop 150 s.chunk 0 u none).1 (by omega) r4 r3 r2 hhigh
      have hsv : sval (negOneLoop (cpLoop 150 s.chunk 0 u none).1 uix).1 = sval s.chunk :=
        p2.trans q1
      have hsne : sval s.chunk ≠ 0 := by
        rw [← hsv]
        exact sval_ne_zero_of_top _ _ (by omega) p4 p5 p7 (fun j hj _ => p8 j hj)
      rw [hcp]
      refine ⟨rfl, rfl, ?_, ?_, hsv, p3.trans q2, ?_, fun h0 => absurd h0 hsne,
        fun _ => ⟨p4, p5, p6, p7, p8⟩⟩
      · show XSUM_SMALL_CARRY_TERMS - 1 = 2046
        norm_num [XSUM_SMALL_CARRY_TERMS]
      · show (negOneLoop (cpLoop 150 s.chunk 0 u none).1 uix).2 ≤ 67
        omega
      · intro j hj
        show (negOneLoop (cpLoop 150 s.chunk 0 u none).1 uix).1 j = s.chunk j
        rw [p8 j (by omega)]
        exact (h1 j (by omega)).symm

/-- Claim C4: when `carry_propagate` runs on a small accumulator produced
by at most the permitted number of adds since the last propagation
(modelled by `Propagatable` together with evenness of chunk 0, which
every reachable state satisfies: every finite value lands in the chunks
shifted left by at least one bit, carries only enter chunks above 0, and
the -1-normalization folds the even constant -2^32 downward), the
returned index `u` points at the uppermost nonzero chunk (and is 0 for a
zero accumulator), every chunk below `u` lies in `[0, 2^32)`, chunk `u`
lies in `[-2^32, 2^32 - 1]` and differs from -1, and the counter is
reset to 2046. -/
theorem claim_C4 (s : SmallAcc) (hp : Propagatable s) (hev : s.chunk 0 % 2 = 0) :
    (carry_propagate s).1.adds_until_propagate = 2046 ∧
    (∀ j, (carry_propagate s).2 < j → (carry_propagate s).1.chunk j = 0) ∧
    (sval s.chunk ≠ 0 → (carry_propagate s).1.chunk (carry_propagate s).2 ≠ 0) ∧
    (sval s.chunk = 0 → (carry_propagate s).2 = 0) ∧
    (∀ j, j < (carry_propagate s).2 →
      0 ≤ (carry_propagate s).1.chunk j ∧ (carry_propagate s).1.chunk j < 2 ^ 32) ∧
    (-(2 ^ 32) ≤ (carry_propagate s).1.chunk (carry_propagate s).2 ∧
      (carry_propagate s).1.chunk (carry_propagate s).2 < 2 ^ 32) ∧
    (carry_propagate s).1.chunk (carry_propagate s).2 ≠ -1 := by
  obtain ⟨c1, c2, c3, c4, c5, cpar, c6, c7, c8⟩ := carry_propagate_spec s hp
  by_cases hz : sval s.chunk = 0
  · obtain ⟨z1, z2⟩ := c7 hz
    refine ⟨c3, fun j hj => z2 j, fun hne => absurd hz hne, fun _ => z1, ?_, ?_, ?_⟩
    · intro j hj
      rw [z1] at hj
      omega
    · rw [z2]
      norm_num
    · rw [z2]
      norm_num
  · obtain ⟨n1, n2, n3, n4, n5⟩ := c8 hz
    refine ⟨c3, n5, fun _ => n1, fun h0 => absurd h0 hz, n4, n2, ?_⟩
    rcases Nat.eq_zero_or_pos (carry_propagate s).2 with h0 | h0
    · rw [h0]
      rw [hev] at cpar
      omega
    · exact n3 (by omega)

/-- Witness for C4 at the state reached by adding the negative smallest
denormal: its only nonzero chunk is chunk 0 = -2 (even), and propagation
returns index 0 with the chunk unchanged and different from -1. -/
theorem claim_C4_witness :
    Propagatable (smallAdd smallInit 9223372036854775809) ∧
    (smallAdd smallInit 9223372036854775809).chunk 0 % 2 = 0 ∧
    (carry_propagate (smallAdd smallInit 9223372036854775809)).1.chunk
      (carry_propagate (smallAdd smallInit 9223372036854775809)).2 ≠ -1 := by
  have hch : (smallAdd smallInit 9223372036854775809).chunk =
      upd (upd (fun _ => (0 : ℤ)) 0 (-2)) 1 0 := rfl
  have hp : Propagatable (smallAdd smallInit 9223372036854775809) := by
    constructor
    · intro j hj
      rw [hch, upd_other _ _ _ _ (by omega), upd_other _ _ _ _ (by omega)]
    · intro j
      rw [hch]
      unfold upd
      split
      · norm_num
      · split
        · norm_num
        · norm_num
  exact ⟨hp, by decide, (claim_C4 _ hp (by decide)).2.2.2.2.2.2⟩

/-- Claim C9: a small accumulator with clear flags that represents the
value zero (no adds, only zeros added -- even exclusively -0.0 -- or
exact cancellation) rounds to +0.0, bit pattern 0, never -0.0. -/
theorem claim_C9 (s : SmallAcc) (hInf : s.Inf = 0) (hNaN : s.NaN = 0)
    (hp : Propagatable s) (hz : sval s.chunk = 0) :
    small_round s = 0 := by
  obtain ⟨c1, c2, c3, c4, c5, cpar, c6, c7, c8⟩ := carry_propagate_spec s hp
  obtain ⟨z1, z2⟩ := c7 hz
  unfold small_round
  rw [if_neg (fun h => h hNaN), if_neg (fun h => h hInf)]
  show round_post (carry_propagate s).1.chunk (carry_propagate s).2 = 0
  rw [z1]
  unfold round_post
  rw [if_pos (show (0 : ℕ) ≤ 1 by norm_num), if_pos (z2 0)]

/-- Witness for C9: adding -0.0 twice to a fresh accumulator leaves a
zero-valued, flag-free state, and rounding it gives bit pattern 0
(+0.0). -/
theorem claim_C9_witness :
    (smallAdd (smallAdd smallInit 9223372036854775808) 9223372036854775808).Inf = 0 ∧
    (smallAdd (smallAdd smallInit 9223372036854775808) 9223372036854775808).NaN = 0 ∧
    sval (smallAdd (smallAdd smallInit 9223372036854775808) 9223372036854775808).chunk = 0 ∧
    small_round (smallAdd (smallAdd smallInit 9223372036854775808) 9223372036854775808) = 0 := by
  have hch : (smallAdd (smallAdd smallInit 9223372036854775808) 9223372036854775808).chunk =
      fun _ => (0 : ℤ) := rfl
  have hz : sval (smallAdd (smallAdd smallInit 9223372036854775808) 9223372036854775808).chunk = 0 := by
    rw [hch]
    unfold sval
    apply Finset.sum_eq_zero
    intro j _
    ring
  have hp : Propagatable (smallAdd (smallAdd smallInit 9223372036854775808) 9223372036854775808) := by
    constructor
    · intro j _
      rw [hch]
    · intro j
      rw [hch]
      norm_num
  exact ⟨rfl, rfl, hz, claim_C9 _ rfl rfl hp hz⟩

/-- The -1-normalization loop never writes above its starting index. -/
theorem negOneLoop_frame : ∀ (t : ℕ) (ch : ℕ → ℤ) (j : ℕ), t + 1 ≤ j →
    (negOneLoop ch t).1 j = ch j := by
  intro t
  induction t with
  | zero =>
    intro ch j hj
    rfl
  | succ t ih =>
    intro ch j hj
    rw [negOneLoop]
    by_cases hm1 : ch (t + 1) = -1
    · rw [if_pos hm1, ih _ j (by omega), upd_other _ _ _ _ (by omega), upd_other _ _ _ _ (by omega)]
    · rw [if_neg hm1]

/-- The scalar small add touches only chunks `high_exp` and
`high_exp + 1` with `high_exp ≤ 63`: chunks from 65 on are unchanged. -/
theorem add_no_carry_frame (s : SmallAcc) (bits : ℕ) : ∀ j, 65 ≤ j →
    (add_no_carry s bits).chunk j = s.chunk j := by
  intro j hj
  unfold add_no_carry
  dsimp only
  by_cases h1 : bits / 2 ^ 52 % 2 ^ 11 = XSUM_EXP_MASK
  · rw [if_pos h1, chunk_add_inf_nan]
  · rw [if_neg h1]
    by_cases h2 : bits / 2 ^ 52 % 2 ^ 11 = 0 ∧ bits % 2 ^ 52 = 0
    · rw [if_pos h2]
    · rw [if_neg h2]
      have hmask : XSUM_EXP_MASK = 2047 := rfl
      rw [hmask] at h1
      have hm : bits / 2 ^ 52 % 2 ^ 11 < 2 ^ 11 := Nat.mod_lt _ (by norm_num)
      have hexp : (if bits / 2 ^ 52 % 2 ^ 11 = 0 then 1 else bits / 2 ^ 52 % 2 ^ 11) / 2 ^ 5 ≤ 63 := by
        split <;> omega
      split
      · dsimp only
        rw [upd_other _ _ _ _ (by omega), upd_other _ _ _ _ (by omega)]
      · dsimp only
        rw [upd_other _ _ _ _ (by omega), upd_other _ _ _ _ (by omega)]

/-- Condensing a large bin (without an interior propagation) touches
only small chunks `high_exp` through `high_exp + 2` with
`high_exp ≤ 63`: chunks from 66 on are unchanged. -/
theorem add_lchunk_frame (l : LargeAcc) (ix : ℕ)
    (haup : l.sacc.adds_until_propagate ≠ 0) : ∀ j, 66 ≤ j →
    (add_lchunk_to_small l ix).sacc.chunk j = l.sacc.chunk j := by
  intro j hj
  unfold add_lchunk_to_small
  dsimp only
  by_cases hc : 0 ≤ l.count ix
  · rw [if_pos hc, if_neg haup]
    dsimp only
    have hm : ix % 2 ^ 11 < 2 ^ 11 := Nat.mod_lt _ (by norm_num)
    have hexp : (if ix % 2 ^ 11 = 0 then 0 else ix % 2 ^ 11 / 2 ^ 5) ≤ 63 := by
      split <;> omega
    split
    · rw [upd_other _ _ _ _ (by omega), upd_other _ _ _ _ (by omega),
        upd_other _ _ _ _ (by omega)]
    · rw [upd_other _ _ _ _ (by omega), upd_other _ _ _ _ (by omega),
        upd_other _ _ _ _ (by omega)]
  · rw [if_neg hc]

/-- With the top in-range chunk small (as the design guarantees: chunk
66 only ever receives high mantissa fragments and carries), carry
propagation never writes outside the 67-chunk array. -/
theorem carry_propagate_frame (s : SmallAcc)
    (h1 : ∀ j, 67 ≤ j → s.chunk j = 0)
    (h2 : ∀ j, -(2 ^ 63 - 2 ^ 32) ≤ s.chunk j ∧ s.chunk j ≤ 2 ^ 63 - 2 ^ 32)
    (h66 : -(2 ^ 31) ≤ s.chunk 66 ∧ s.chunk 66 < 2 ^ 31) : ∀ j, 67 ≤ j →
    (carry_propagate s).1.chunk j = s.chunk j := by
  intro j hj
  rcases hft : findTop s.chunk with _ | u
  · rw [carry_propagate_none s hft]
  · obtain ⟨hu1, hu2, hu3⟩ := (findTopAux_spec 66 s.chunk).2 u hft
    have hinv : CPInv 66 s.chunk 0 u none := by
      refine ⟨by omega, by omega, by omega, ?_, ?_, ?_, ?_, ?_, ?_, ?_, ?_, ?_⟩
      · intro k hk1 hk2
        rcases Nat.lt_or_ge k 67 with hk | hk
        · exact hu3 k hk1 (by omega)
        · exact h1 k hk
      · intro k hk
        exact h1 k (by omega)
      · intro k hk
        omega
      · intro _ k hk
        omega
      · intro k hk
        exact Option.noConfusion hk
      · intro k hk
        exact h2 k
      · obtain ⟨hb1, hb2⟩ := h2 0
        constructor <;> omega
      · intro _
        exact h66
      · intro h
        omega
    obtain ⟨q1, q2, q3, q4, q5⟩ := cpLoop_spec 150 66 s.chunk 0 u none hinv (by omega)
    rcases hres : (cpLoop 150 s.chunk 0 u none).2 with _ | uix
    · rw [carry_propagate_some s u hft, hres]
      exact q3 j (by omega)
    · rw [carry_propagate_some s u hft, hres]
      obtain ⟨r1, r2, r3, r4, r5⟩ := q5 uix hres
      show (negOneLoop (cpLoop 150 s.chunk 0 u none).1 uix).1 j = s.chunk j
      rw [negOneLoop_frame uix _ j (by omega)]
      exact q3 j (by omega)

/-- Claim C10: every small-accumulator chunk index accessed is in
bounds: the scalar add writes only `chunk[high_exp]` and
`chunk[high_exp + 1]` with `high_exp ≤ 63` (chunks from 65 on are
untouched), condensing a large bin writes only `chunk[high_exp]`
through `chunk[high_exp + 2]` with `high_exp ≤ 63` (chunks from 66 on
are untouched; the embedded propagation is excluded by a nonzero
counter), and carry propagation on a state whose chunk 66 is within the
designed slack leaves all chunks from 67 = XSUM_SCHUNKS on untouched,
so the out-of-bounds branch of the embedding is unreachable. -/
theorem claim_C10 :
    (∀ (s : SmallAcc) (bits : ℕ) (j : ℕ), 65 ≤ j →
      (add_no_carry s bits).chunk j = s.chunk j) ∧
    (∀ (l : LargeAcc) (ix : ℕ), l.sacc.adds_until_propagate ≠ 0 → ∀ j, 66 ≤ j →
      (add_lchunk_to_small l ix).sacc.chunk j = l.sacc.chunk j) ∧
    (∀ (s : SmallAcc), (∀ j, 67 ≤ j → s.chunk j = 0) →
      (∀ j, -(2 ^ 63 - 2 ^ 32) ≤ s.chunk j ∧ s.chunk j ≤ 2 ^ 63 - 2 ^ 32) →
      (-(2 ^ 31) ≤ s.chunk 66 ∧ s.chunk 66 < 2 ^ 31) →
      ∀ j, 67 ≤ j → (carry_propagate s).1.chunk j = s.chunk j) :=
  ⟨fun s bits j hj => add_no_carry_frame s bits j hj,
   fun l ix haup j hj => add_lchunk_frame l ix haup j hj,
   fun s ha hb hc j hj => carry_propagate_frame s ha hb hc j hj⟩

/-- Witness for C10 at concrete inputs: adding 1.5 to a fresh small
accumulator leaves chunk 66 unchanged, condensing bin 10 of a fresh
large accumulator leaves small chunk 66 unchanged, and propagating a
fresh small accumulator leaves chunk 67 unchanged. -/
theorem claim_C10_witness :
    (add_no_carry smallInit 4609434218613702656).chunk 66 = smallInit.chunk 66 ∧
    (add_lchunk_to_small largeInit 10).sacc.chunk 66 = largeInit.sacc.chunk 66 ∧
    (carry_propagate smallInit).1.chunk 67 = smallInit.chunk 67 :=
  ⟨claim_C10.1 smallInit 4609434218613702656 66 (by norm_num),
   claim_C10.2.1 largeInit 10 (by decide) 66 (by norm_num),
   claim_C10.2.2 smallInit (fun j _ => rfl) (fun j => ⟨by norm_num [smallInit], by norm_num [smallInit]⟩)
     ⟨by norm_num [smallInit], by norm_num [smallInit]⟩ 67 (by norm_num)⟩

/-- A finite value (exponent field not all ones) never changes the Inf
or NaN flag of the accumulator it is added to. -/
theorem flags_add_no_carry_finite (s : SmallAcc) (bits : ℕ)
    (h : bits / 2 ^ 52 % 2 ^ 11 ≠ XSUM_EXP_MASK) :
    (add_no_carry s bits).Inf = s.Inf ∧ (add_no_carry s bits).NaN = s.NaN := by
  unfold add_no_carry
  dsimp only
  rw [if_neg h]
  split
  · exact ⟨rfl, rfl⟩
  · split
    · exact ⟨rfl, rfl⟩
    · exact ⟨rfl, rfl⟩

theorem flags_add_no_carry_run_finite : ∀ (l : List ℕ) (s : SmallAcc),
    (∀ x ∈ l, x / 2 ^ 52 % 2 ^ 11 ≠ XSUM_EXP_MASK) →
    (add_no_carry_run s l).Inf = s.Inf ∧ (add_no_carry_run s l).NaN = s.NaN := by
  intro l
  induction l with
  | nil =>
    intro s _
    exact ⟨rfl, rfl⟩
  | cons x t ih =>
    intro s hf
    obtain ⟨hI, hN⟩ := ih (add_no_carry s x) (fun y hy => hf y (List.mem_cons_of_mem x hy))
    obtain ⟨hI1, hN1⟩ := flags_add_no_carry_finite s x (hf x (List.mem_cons_self x t))
    exact ⟨hI.trans hI1, hN.trans hN1⟩

/-- Pointwise decomposition of a double update against an all-zero base
map, used to show a scalar add contributes the same wrapped delta to any
in-range chunk array. -/
theorem upd2_split_sub (f g : ℕ → ℤ) (a : ℕ) (x y : ℤ) (i : ℕ)
    (hf : ∀ j, -(2 ^ 63) ≤ f j ∧ f j < 2 ^ 63)
    (hgz : ∀ j, g j = 0) :
    upd (upd f a (w64 (f a - x))) (a + 1) (w64 (f (a + 1) - y)) i =
      w64 (f i + upd (upd g a (w64 (g a - x))) (a + 1) (w64 (g (a + 1) - y)) i) := by
  by_cases h1 : i = a + 1
  · subst h1
    rw [upd_same, upd_same, hgz, w64_add_right]
    congr 1
    ring
  · rw [upd_other _ _ _ _ h1, upd_other _ _ _ _ h1]
    by_cases h2 : i = a
    · subst h2
      rw [upd_same, upd_same, hgz, w64_add_right]
      congr 1
      ring
    · rw [upd_other _ _ _ _ h2, upd_other _ _ _ _ h2, hgz, add_zero,
        w64_eq_self (hf i).1 (hf i).2]

theorem upd2_split_add (f g : ℕ → ℤ) (a : ℕ) (x y : ℤ) (i : ℕ)
    (hf : ∀ j, -(2 ^ 63) ≤ f j ∧ f j < 2 ^ 63)
    (hgz : ∀ j, g j = 0) :
    upd (upd f a (w64 (f a + x))) (a + 1) (w64 (f (a + 1) + y)) i =
      w64 (f i + upd (upd g a (w64 (g a + x))) (a + 1) (w64 (g (a + 1) + y)) i) := by
  by_cases h1 : i = a + 1
  · subst h1
    rw [upd_same, upd_same, hgz, w64_add_right]
    congr 1
    ring
  · rw [upd_other _ _ _ _ h1, upd_other _ _ _ _ h1]
    by_cases h2 : i = a
    · subst h2
      rw [upd_same, upd_same, hgz, w64_add_right]
      congr 1
      ring
    · rw [upd_other _ _ _ _ h2, upd_other _ _ _ _ h2, hgz, add_zero,
        w64_eq_self (hf i).1 (hf i).2]

/-- Adding a finite value to an in-range chunk array changes chunk `i`
to the wrap of its old value plus the contribution the same value makes
to a fresh accumulator. -/
theorem chunk_add_no_carry_split (s : SmallAcc) (bits : ℕ)
    (hfin : bits / 2 ^ 52 % 2 ^ 11 ≠ XSUM_EXP_MASK)
    (hs : ∀ i, -(2 ^ 63) ≤ s.chunk i ∧ s.chunk i < 2 ^ 63) (i : ℕ) :
    (add_no_carry s bits).chunk i =
      w64 (s.chunk i + (add_no_carry smallInit bits).chunk i) := by
  unfold add_no_carry
  dsimp only
  rw [if_neg hfin, if_neg hfin]
  by_cases hz : bits / 2 ^ 52 % 2 ^ 11 = 0 ∧ bits % 2 ^ 52 = 0
  · rw [if_pos hz, if_pos hz]
    show s.chunk i = w64 (s.chunk i + smallInit.chunk i)
    obtain ⟨hb1, hb2⟩ := hs i
    rw [show smallInit.chunk i = 0 from rfl, add_zero, w64_eq_self hb1 hb2]
  · rw [if_neg hz, if_neg hz]
    by_cases hneg : toIvalue bits < 0
    · rw [if_pos hneg, if_pos hneg]
      dsimp only
      exact upd2_split_sub s.chunk smallInit.chunk _ _ _ i hs (fun _ => rfl)
    · rw [if_neg hneg, if_neg hneg]
      dsimp only
      exact upd2_split_add s.chunk smallInit.chunk _ _ _ i hs (fun _ => rfl)

theorem chunk_bounds_add_no_carry_run : ∀ (l : List ℕ) (s : SmallAcc),
    (∀ x ∈ l, x / 2 ^ 52 % 2 ^ 11 ≠ XSUM_EXP_MASK) →
    (∀ i, -(2 ^ 63) ≤ s.chunk i ∧ s.chunk i < 2 ^ 63) →
    ∀ i, -(2 ^ 63) ≤ (add_no_carry_run s l).chunk i ∧ (add_no_carry_run s l).chunk i < 2 ^ 63 := by
  intro l
  induction l with
  | nil =>
    intro s _ hs
    exact hs
  | cons x t ih =>
    intro s hf hs
    refine ih (add_no_carry s x) (fun y hy => hf y (List.mem_cons_of_mem x hy)) ?_
    intro i
    rw [chunk_add_no_carry_split s x (hf x (List.mem_cons_self x t)) hs i]
    exact w64_bounds _

/-- A run of finite adds contributes, chunk by chunk, the wrap of the
contributions it makes to a fresh accumulator -- regardless of the
in-range array it starts from. -/
theorem chunk_add_no_carry_run_split : ∀ (l : List ℕ) (s : SmallAcc),
    (∀ x ∈ l, x / 2 ^ 52 % 2 ^ 11 ≠ XSUM_EXP_MASK) →
    (∀ i, -(2 ^ 63) ≤ s.chunk i ∧ s.chunk i < 2 ^ 63) →
    ∀ i, (add_no_carry_run s l).chunk i =
      w64 (s.chunk i + (add_no_carry_run smallInit l).chunk i) := by
  intro l
  induction l with
  | nil =>
    intro s _ hs i
    obtain ⟨hb1, hb2⟩ := hs i
    show s.chunk i = w64 (s.chunk i + smallInit.chunk i)
    rw [show smallInit.chunk i = 0 from rfl, add_zero, w64_eq_self hb1 hb2]
  | cons x t ih =>
    intro s hf hs i
    have hfx : x / 2 ^ 52 % 2 ^ 11 ≠ XSUM_EXP_MASK := hf x (List.mem_cons_self x t)
    have hft : ∀ y ∈ t, y / 2 ^ 52 % 2 ^ 11 ≠ XSUM_EXP_MASK :=
      fun y hy => hf y (List.mem_cons_of_mem x hy)
    have hs0 : ∀ i, -(2 ^ 63) ≤ smallInit.chunk i ∧ smallInit.chunk i < 2 ^ 63 := by
      intro i
      constructor <;> norm_num [smallInit]
    have hb1 : ∀ k, -(2 ^ 63) ≤ (add_no_carry s x).chunk k ∧ (add_no_carry s x).chunk k < 2 ^ 63 := by
      intro k
      rw [chunk_add_no_carry_split s x hfx hs k]
      exact w64_bounds _
    have hb2 : ∀ k, -(2 ^ 63) ≤ (add_no_carry smallInit x).chunk k ∧
        (add_no_carry smallInit x).chunk k < 2 ^ 63 := by
      intro k
      rw [chunk_add_no_carry_split smallInit x hfx hs0 k]
      exact w64_bounds _
    show (add_no_carry_run (add_no_carry s x) t).chunk i =
      w64 (s.chunk i + (add_no_carry_run (add_no_carry smallInit x) t).chunk i)
    rw [ih (add_no_carry s x) hft hb1 i, ih (add_no_carry smallInit x) hft hb2 i,
      chunk_add_no_carry_split s x hfx hs i, w64_add_left, w64_add_right, add_assoc]

theorem add_no_carry_run_frame : ∀ (l : List ℕ) (s : SmallAcc) (j : ℕ), 65 ≤ j →
    (add_no_carry_run s l).chunk j = s.chunk j := by
  intro l
  induction l with
  | nil =>
    intro s j _
    rfl
  | cons x t ih =>
    intro s j hj
    show (add_no_carry_run (add_no_carry s x) t).chunk j = s.chunk j
    rw [ih (add_no_carry s x) j hj, add_no_carry_frame s x j hj]

/-- `carry_propagate` reads only the chunks, so overwriting the counter
changes neither the propagated chunks nor the returned index. -/
theorem carry_propagate_set_aup (s : SmallAcc) (a : ℤ) :
    (carry_propagate { s with adds_until_propagate := a }).1.chunk =
      (carry_propagate s).1.chunk ∧
    (carry_propagate { s with adds_until_propagate := a }).2 = (carry_propagate s).2 := by
  have hc : ({ s with adds_until_propagate := a } : SmallAcc).chunk = s.chunk := rfl
  rcases hft : findTop s.chunk with _ | u
  · rw [carry_propagate_none { s with adds_until_propagate := a } hft,
      carry_propagate_none s hft]
    exact ⟨rfl, rfl⟩
  · rw [carry_propagate_some { s with adds_until_propagate := a } u hft,
      carry_propagate_some s u hft, hc]
    rcases hres : (cpLoop 150 s.chunk 0 u none).2 with _ | uix
    · exact ⟨rfl, rfl⟩
    · exact ⟨rfl, rfl⟩

/-- `round` never reads the remaining-adds counter. -/
theorem small_round_set_aup (s : SmallAcc) (a : ℤ) :
    small_round { s with adds_until_propagate := a } = small_round s := by
  obtain ⟨h1, h2⟩ := carry_propagate_set_aup s a
  unfold small_round
  dsimp only
  rw [h1, h2]

/-- The small + small merge on a recipient with a live counter and no
special flags anywhere: pointwise wrapped chunk addition over the 67
chunks plus a counter decrement. -/
theorem small_add_acc_finite (s1 s2 : SmallAcc) (haup : s1.adds_until_propagate ≠ 0)
    (hI2 : s2.Inf = 0) (hN2 : s2.NaN = 0) (hN1 : s1.NaN = 0) :
    small_add_acc s1 s2 =
      { s1 with
        chunk := fun i => if i < XSUM_SCHUNKS then w64 (s1.chunk i + s2.chunk i) else s1.chunk i,
        adds_until_propagate := s1.adds_until_propagate - 1 } := by
  unfold small_add_acc add_no_carry_acc
  dsimp only
  rw [if_neg haup, if_neg (show ¬s2.Inf ≠ 0 from fun h => h hI2),
    if_neg (show ¬(s2.NaN ≠ 0 ∨ s1.NaN ≠ 0) from fun h => h.elim (fun h2 => h2 hN2) (fun h2 => h2 hN1))]

/-- Counterexample to claim C2 as stated: the merge `xsum_add(small,
small)` tests the donor's Inf flag before its NaN flag and then ignores
the NaN, so a group accumulator holding both +Inf and a NaN (pattern
0x7FF0000000000005) merges as +Inf, while adding the same three values
into a single accumulator rounds to the NaN pattern. -/
theorem claim_C2_counterexample :
    small_round (small_add_acc (List.foldl smallAdd smallInit [4607182418800017408])
        (List.foldl smallAdd smallInit [9218868437227405312, 9218868437227405317])) ≠
      small_round (List.foldl smallAdd smallInit
        ([4607182418800017408] ++ [9218868437227405312, 9218868437227405317])) := by
  decide

/-- Bounds of a fresh accumulator's chunks. -/
theorem smallInit_chunk_bounds : ∀ i, -(2 ^ 63) ≤ smallInit.chunk i ∧ smallInit.chunk i < 2 ^ 63 := by
  intro i
  constructor <;> norm_num [smallInit]

/-- Adding two finite values commutes (the accumulator state is
identical either way): both orders add the same wrapped deltas to the
same two chunk pairs. -/
theorem add_no_carry_comm (s : SmallAcc) (x y : ℕ)
    (hx : x / 2 ^ 52 % 2 ^ 11 ≠ XSUM_EXP_MASK) (hy : y / 2 ^ 52 % 2 ^ 11 ≠ XSUM_EXP_MASK)
    (hs : ∀ i, -(2 ^ 63) ≤ s.chunk i ∧ s.chunk i < 2 ^ 63) :
    add_no_carry (add_no_carry s x) y = add_no_carry (add_no_carry s y) x := by
  have hbx : ∀ k, -(2 ^ 63) ≤ (add_no_carry s x).chunk k ∧ (add_no_carry s x).chunk k < 2 ^ 63 := by
    intro k
    rw [chunk_add_no_carry_split s x hx hs k]
    exact w64_bounds _
  have hby : ∀ k, -(2 ^ 63) ≤ (add_no_carry s y).chunk k ∧ (add_no_carry s y).chunk k < 2 ^ 63 := by
    intro k
    rw [chunk_add_no_carry_split s y hy hs k]
    exact w64_bounds _
  refine SmallAcc_eq_of _ _ (funext ?_) ?_ ?_ ?_
  · intro i
    rw [chunk_add_no_carry_split (add_no_carry s x) y hy hbx i,
      chunk_add_no_carry_split s x hx hs i,
      chunk_add_no_carry_split (add_no_carry s y) x hx hby i,
      chunk_add_no_carry_split s y hy hs i, w64_add_left, w64_add_left]
    congr 1
    ring
  · obtain ⟨h1, _⟩ := flags_add_no_carry_finite (add_no_carry s x) y hy
    obtain ⟨h2, _⟩ := flags_add_no_carry_finite s x hx
    obtain ⟨h3, _⟩ := flags_add_no_carry_finite (add_no_carry s y) x hx
    obtain ⟨h4, _⟩ := flags_add_no_carry_finite s y hy
    rw [h1, h2, h3, h4]
  · obtain ⟨_, h1⟩ := flags_add_no_carry_finite (add_no_carry s x) y hy
    obtain ⟨_, h2⟩ := flags_add_no_carry_finite s x hx
    obtain ⟨_, h3⟩ := flags_add_no_carry_finite (add_no_carry s y) x hx
    obtain ⟨_, h4⟩ := flags_add_no_carry_finite s y hy
    rw [h1, h2, h3, h4]
  · rw [aup_add_no_carry, aup_add_no_carry, aup_add_no_carry, aup_add_no_carry]

/-- A run of finite no-carry adds depends only on the multiset of
values: permuting the list gives the identical accumulator state. -/
theorem run_perm : ∀ {l l' : List ℕ}, l.Perm l' →
    (∀ x ∈ l, x / 2 ^ 52 % 2 ^ 11 ≠ XSUM_EXP_MASK) →
    ∀ s : SmallAcc, (∀ i, -(2 ^ 63) ≤ s.chunk i ∧ s.chunk i < 2 ^ 63) →
    add_no_carry_run s l = add_no_carry_run s l' := by
  intro l l' h
  induction h with
  | nil =>
    intro _ s _
    rfl
  | cons x h ih =>
    intro hf s hs
    show add_no_carry_run (add_no_carry s x) _ = add_no_carry_run (add_no_carry s x) _
    refine ih (fun y hy => hf y (List.mem_cons_of_mem x hy)) (add_no_carry s x) ?_
    intro k
    rw [chunk_add_no_carry_split s x (hf x (List.mem_cons_self x _)) hs k]
    exact w64_bounds _
  | swap x y t =>
    intro hf s hs
    show add_no_carry_run (add_no_carry (add_no_carry s y) x) t =
      add_no_carry_run (add_no_carry (add_no_carry s x) y) t
    rw [add_no_carry_comm s y x (hf y (List.mem_cons_self y _))
      (hf x (List.mem_cons_of_mem y (List.mem_cons_self x t))) hs]
  | trans h1 h2 ih1 ih2 =>
    intro hf s hs
    rw [ih1 hf s hs, ih2 (fun y hy => hf y (h1.mem_iff.mpr hy)) s hs]

/-- A tree of groups: the shape of a partition of the input multiset
into groups (the leaves, in order) together with an order and
association of the `add_accumulator` merges (the internal nodes). -/
inductive GroupTree where
  | leaf : List ℕ → GroupTree
  | node : GroupTree → GroupTree → GroupTree

/-- All values of the tree's groups, in leaf order. -/
def treeVals : GroupTree → List ℕ
  | .leaf v => v
  | .node l r => treeVals l ++ treeVals r

/-- The tree's operation count: one per added value plus one per merge
(a fresh accumulator's budget covers 2047 such operations between
carry propagations). -/
def treeOps : GroupTree → ℕ
  | .leaf v => v.length
  | .node l r => treeOps l + treeOps r + 1

/-- Summing each group into its own fresh small accumulator via
add_value and combining the group accumulators with
add_accumulator(small, small) in the tree's order and association. -/
def treeAcc : GroupTree → SmallAcc
  | .leaf v => List.foldl smallAdd smallInit v
  | .node l r => small_add_acc (treeAcc l) (treeAcc r)

/-- The balanced tree holding `2 ^ (k + 1)` copies of the finite value
0x7DFFFFFFFFFFFFFF in groups of two, used to exhibit int64 chunk
wrap-around in the merge. -/
def doublingTree : ℕ → GroupTree
  | 0 => .leaf [9079256848778919935, 9079256848778919935]
  | k + 1 => .node (doublingTree k) (doublingTree k)

theorem treeVals_length_le : ∀ t : GroupTree, (treeVals t).length ≤ treeOps t := by
  intro t
  induction t with
  | leaf v =>
    exact le_refl _
  | node l r ihl ihr =>
    show (treeVals l ++ treeVals r).length ≤ treeOps l + treeOps r + 1
    rw [List.length_append]
    omega

theorem treeVals_doublingTree : ∀ k : ℕ,
    treeVals (doublingTree k) = List.replicate (2 ^ (k + 1)) 9079256848778919935 := by
  intro k
  induction k with
  | zero =>
    rfl
  | succ k ih =>
    show treeVals (doublingTree k) ++ treeVals (doublingTree k) = _
    rw [ih, ← List.replicate_add]
    congr 1
    rw [pow_succ 2 (k + 1), mul_two]

/-- Within one propagation budget, the tree of merges produces exactly
the state of one batched no-carry run over all its values (with the
merge's own counter arithmetic, which `round` ignores): chunks and
flags agree, and every intermediate counter stays positive. -/
theorem treeAcc_eq : ∀ t : GroupTree,
    (∀ x ∈ treeVals t, x / 2 ^ 52 % 2 ^ 11 ≠ XSUM_EXP_MASK) →
    treeOps t ≤ 2047 →
    (treeAcc t).chunk = (add_no_carry_run smallInit (treeVals t)).chunk ∧
    (treeAcc t).Inf = 0 ∧ (treeAcc t).NaN = 0 ∧
    XSUM_SMALL_CARRY_TERMS - (treeOps t : ℤ) ≤ (treeAcc t).adds_until_propagate := by
  have hX : XSUM_SMALL_CARRY_TERMS = (2047 : ℤ) := by norm_num [XSUM_SMALL_CARRY_TERMS]
  intro t
  induction t with
  | leaf v =>
    intro hf hn
    have hn' : v.length ≤ 2047 := hn
    have hrw : List.foldl smallAdd smallInit v =
        { add_no_carry_run smallInit v with
          adds_until_propagate := smallInit.adds_until_propagate - v.length } :=
      foldl_smallAdd_no_prop v smallInit (by
        rw [show smallInit.adds_until_propagate = (2047 : ℤ) from rfl]
        omega)
    show (List.foldl smallAdd smallInit v).chunk = _ ∧
      (List.foldl smallAdd smallInit v).Inf = 0 ∧
      (List.foldl smallAdd smallInit v).NaN = 0 ∧
      XSUM_SMALL_CARRY_TERMS - (treeOps (GroupTree.leaf v) : ℤ) ≤
        (List.foldl smallAdd smallInit v).adds_until_propagate
    rw [hrw]
    obtain ⟨hI, hN⟩ := flags_add_no_carry_run_finite v smallInit hf
    refine ⟨rfl, hI.trans rfl, hN.trans rfl, ?_⟩
    show XSUM_SMALL_CARRY_TERMS - ((treeOps (GroupTree.leaf v) : ℕ) : ℤ) ≤
      smallInit.adds_until_propagate - (v.length : ℤ)
    rw [show treeOps (GroupTree.leaf v) = v.length from rfl,
      show smallInit.adds_until_propagate = XSUM_SMALL_CARRY_TERMS from rfl]
  | node l r ihl ihr =>
    intro hf hn
    have hno : treeOps (GroupTree.node l r) = treeOps l + treeOps r + 1 := rfl
    have hn' : treeOps l + treeOps r + 1 ≤ 2047 := by
      rw [← hno]
      exact hn
    have hfl : ∀ x ∈ treeVals l, x / 2 ^ 52 % 2 ^ 11 ≠ XSUM_EXP_MASK :=
      fun x hx => hf x (List.mem_append.mpr (Or.inl hx))
    have hfr : ∀ x ∈ treeVals r, x / 2 ^ 52 % 2 ^ 11 ≠ XSUM_EXP_MASK :=
      fun x hx => hf x (List.mem_append.mpr (Or.inr hx))
    obtain ⟨cl, il, nl, al⟩ := ihl hfl (by omega)
    obtain ⟨cr, ir, nr, ar⟩ := ihr hfr (by omega)
    rw [hX] at al ar
    have haup : (treeAcc l).adds_until_propagate ≠ 0 := by
      intro h0
      rw [h0] at al
      omega
    have hsa : small_add_acc (treeAcc l) (treeAcc r) =
        { treeAcc l with
          chunk := fun i => if i < XSUM_SCHUNKS
            then w64 ((treeAcc l).chunk i + (treeAcc r).chunk i) else (treeAcc l).chunk i,
          adds_until_propagate := (treeAcc l).adds_until_propagate - 1 } :=
      small_add_acc_finite (treeAcc l) (treeAcc r) haup ir nr nl
    have hdef : treeAcc (GroupTree.node l r) = small_add_acc (treeAcc l) (treeAcc r) := rfl
    rw [hdef, hsa]
    have hC0 : add_no_carry_run smallInit (treeVals l ++ treeVals r) =
        add_no_carry_run (add_no_carry_run smallInit (treeVals l)) (treeVals r) := by
      unfold add_no_carry_run
      rw [List.foldl_append]
    refine ⟨funext ?_, il, nl, ?_⟩
    · intro i
      show (if i < XSUM_SCHUNKS
          then w64 ((treeAcc l).chunk i + (treeAcc r).chunk i) else (treeAcc l).chunk i) =
        (add_no_carry_run smallInit (treeVals l ++ treeVals r)).chunk i
      rw [cl, cr]
      by_cases hi : i < XSUM_SCHUNKS
      · rw [if_pos hi, hC0, chunk_add_no_carry_run_split (treeVals r)
          (add_no_carry_run smallInit (treeVals l)) hfr
          (chunk_bounds_add_no_carry_run (treeVals l) smallInit hfl smallInit_chunk_bounds) i]
      · rw [if_neg hi, hC0, add_no_carry_run_frame (treeVals r) _ i (by
          unfold XSUM_SCHUNKS at hi
          omega)]
    · show XSUM_SMALL_CARRY_TERMS - ((treeOps (GroupTree.node l r) : ℕ) : ℤ) ≤
        (treeAcc l).adds_until_propagate - 1
      rw [hX, hno]
      push_cast
      omega

/-- Claim C2 (amended): restricted to finite values -- the original
claim fails on Inf/NaN inputs, see the counterexample -- and to one
propagation budget (values plus merges at most 2047; some bound of this
kind is unavoidable, see `finite_merge_overflow_divergence`):
(1) for every partition of the input into groups and every order and
association of the merges (any `GroupTree`), summing each group into
its own fresh small accumulator with add_value and combining the group
accumulators with add_accumulator(small, small) rounds to exactly the
same bit pattern as summing all the values into a single fresh
accumulator; and (2) the single-accumulator sum is itself independent
of the order of its values (the states are equal outright), so the
common value depends only on the multiset. -/
theorem claim_C2_amended :
    (∀ t : GroupTree,
      (∀ x ∈ treeVals t, x / 2 ^ 52 % 2 ^ 11 ≠ XSUM_EXP_MASK) →
      treeOps t ≤ 2047 →
      small_round (treeAcc t) =
        small_round (List.foldl smallAdd smallInit (treeVals t))) ∧
    (∀ l l' : List ℕ, l.Perm l' →
      (∀ x ∈ l, x / 2 ^ 52 % 2 ^ 11 ≠ XSUM_EXP_MASK) →
      l.length ≤ 2047 →
      List.foldl smallAdd smallInit l = List.foldl smallAdd smallInit l') := by
  constructor
  · intro t hf hn
    obtain ⟨hc, hI, hN, ha⟩ := treeAcc_eq t hf hn
    have hlen := treeVals_length_le t
    rw [foldl_smallAdd_no_prop (treeVals t) smallInit (by
      rw [show smallInit.adds_until_propagate = (2047 : ℤ) from rfl]
      omega)]
    rw [small_round_set_aup (add_no_carry_run smallInit (treeVals t))
      (smallInit.adds_until_propagate - ((treeVals t).length : ℤ))]
    obtain ⟨hIC, hNC⟩ := flags_add_no_carry_run_finite (treeVals t) smallInit hf
    have ht : treeAcc t = { add_no_carry_run smallInit (treeVals t) with
        adds_until_propagate := (treeAcc t).adds_until_propagate } :=
      SmallAcc_eq_of _ _ hc (hI.trans (hIC.trans rfl).symm) (hN.trans (hNC.trans rfl).symm) rfl
    rw [ht, small_round_set_aup (add_no_carry_run smallInit (treeVals t))
      ((treeAcc t).adds_until_propagate)]
  · intro l l' hperm hf hlen
    have hflen := hperm.length_eq
    rw [foldl_smallAdd_no_prop l smallInit (by
        rw [show smallInit.adds_until_propagate = (2047 : ℤ) from rfl]
        omega),
      foldl_smallAdd_no_prop l' smallInit (by
        rw [show smallInit.adds_until_propagate = (2047 : ℤ) from rfl]
        omega),
      run_perm hperm hf smallInit smallInit_chunk_bounds, hflen]

/-- Witness for the amended C2: the partition of {1.0, 2.0, 3.0} into
groups [1.0, 2.0] and [3.0], merged, rounds like the single
accumulator; and the single accumulator is order-independent. -/
theorem claim_C2_witness :
    (∀ x ∈ treeVals (GroupTree.node (GroupTree.leaf [4607182418800017408, 4611686018427387904])
        (GroupTree.leaf [4613937818241073152])), x / 2 ^ 52 % 2 ^ 11 ≠ XSUM_EXP_MASK) ∧
    small_round (treeAcc (GroupTree.node
        (GroupTree.leaf [4607182418800017408, 4611686018427387904])
        (GroupTree.leaf [4613937818241073152]))) =
      small_round (List.foldl smallAdd smallInit
        (treeVals (GroupTree.node (GroupTree.leaf [4607182418800017408, 4611686018427387904])
          (GroupTree.leaf [4613937818241073152])))) ∧
    List.foldl smallAdd smallInit [4607182418800017408, 4611686018427387904] =
      List.foldl smallAdd smallInit [4611686018427387904, 4607182418800017408] :=
  ⟨by decide,
   claim_C2_amended.1 (GroupTree.node (GroupTree.leaf [4607182418800017408, 4611686018427387904])
      (GroupTree.leaf [4613937818241073152])) (by decide) (by decide),
   claim_C2_amended.2 [4607182418800017408, 4611686018427387904]
      [4611686018427387904, 4607182418800017408] (by decide) (by decide) (by decide)⟩

/-- The chunk contribution of `n` copies of one finite value to a fresh
accumulator is the wrap of `n` times one copy's contribution. -/
theorem run_replicate_chunk : ∀ (n : ℕ) (x : ℕ),
    x / 2 ^ 52 % 2 ^ 11 ≠ XSUM_EXP_MASK → ∀ i,
    (add_no_carry_run smallInit (List.replicate n x)).chunk i =
      w64 ((n : ℤ) * (add_no_carry smallInit x).chunk i) := by
  intro n
  induction n with
  | zero =>
    intro x _ i
    show smallInit.chunk i = w64 (((0 : ℕ) : ℤ) * (add_no_carry smallInit x).chunk i)
    rw [Nat.cast_zero, zero_mul]
    show (0 : ℤ) = w64 0
    unfold w64
    decide
  | succ n ih =>
    intro x hx i
    rw [List.replicate_succ]
    show (add_no_carry_run (add_no_carry smallInit x) (List.replicate n x)).chunk i = _
    rw [chunk_add_no_carry_run_split (List.replicate n x) (add_no_carry smallInit x)
        (fun y hy => by rw [List.eq_of_mem_replicate hy]; exact hx)
        (fun k => by
          rw [chunk_add_no_carry_split smallInit x hx smallInit_chunk_bounds k]
          exact w64_bounds _) i,
      ih x hx i, w64_add_right]
    congr 1
    push_cast
    ring

set_option maxRecDepth 40000 in
/-- The finite-value merge equality fails beyond the propagation
budget: 2049 finite values, partitioned into 1025 pair/single groups
and merged as a balanced tree, wrap a chunk past 2^63 (the merge adds
the donor's chunks with plain wrapping addition and decrements the
recipient's counter by only 1, so no propagation intervenes), while
the single accumulator propagates mid-stream and rounds the sum
correctly. This is why the amended claim C2 carries its operation
bound. -/
theorem finite_merge_overflow_divergence :
    small_round (treeAcc (GroupTree.node (doublingTree 10)
        (GroupTree.leaf [9079256853073887231]))) ≠
      small_round (List.foldl smallAdd smallInit
        (treeVals (GroupTree.node (doublingTree 10)
          (GroupTree.leaf [9079256853073887231])))) := by
  have hv : treeVals (GroupTree.node (doublingTree 10)
      (GroupTree.leaf [9079256853073887231])) =
      List.replicate 2048 9079256848778919935 ++ [9079256853073887231] := by
    show treeVals (doublingTree 10) ++ [9079256853073887231] = _
    rw [treeVals_doublingTree 10]
    norm_num
  rw [hv]
  have hsplit : List.replicate 2048 9079256848778919935 ++ [9079256853073887231] =
      List.replicate 2047 9079256848778919935 ++
        [9079256848778919935, 9079256853073887231] := by
    rw [show (2048 : ℕ) = 2047 + 1 from rfl, List.replicate_add, List.append_assoc]
    rfl
  rw [hsplit, List.foldl_append]
  rw [foldl_smallAdd_no_prop (List.replicate 2047 9079256848778919935) smallInit (by
    rw [List.length_replicate, show smallInit.adds_until_propagate = (2047 : ℤ) from rfl]
    norm_num)]
  have hS : ({ add_no_carry_run smallInit (List.replicate 2047 9079256848778919935) with
      adds_until_propagate := smallInit.adds_until_propagate -
        ((List.replicate 2047 9079256848778919935).length : ℤ) } : SmallAcc) =
      { chunk := fun i => w64 (2047 * (add_no_carry smallInit 9079256848778919935).chunk i),
        Inf := 0, NaN := 0, adds_until_propagate := 0 } := by
    refine SmallAcc_eq_of _ _ (funext ?_) ?_ ?_ ?_
    · intro i
      dsimp only
      rw [run_replicate_chunk 2047 9079256848778919935 (by decide) i]
      norm_num
    · dsimp only
      obtain ⟨hI, _⟩ := flags_add_no_carry_run_finite (List.replicate 2047 9079256848778919935)
        smallInit (fun y hy => by rw [List.eq_of_mem_replicate hy]; decide)
      exact hI.trans rfl
    · dsimp only
      obtain ⟨_, hN⟩ := flags_add_no_carry_run_finite (List.replicate 2047 9079256848778919935)
        smallInit (fun y hy => by rw [List.eq_of_mem_replicate hy]; decide)
      exact hN.trans rfl
    · dsimp only
      rw [List.length_replicate, show smallInit.adds_until_propagate = (2047 : ℤ) from rfl]
      norm_num
  rw [hS]
  decide

/-- Folding an infinity's signed pattern into the flags: the NaN word is
untouched and the Inf word follows the source's three-way test. -/
theorem add_inf_nan_inf (s : SmallAcc) (iv : ℤ) (hm : iv % 2 ^ 52 = 0) :
    (add_inf_nan s iv).NaN = s.NaN ∧
    (add_inf_nan s iv).Inf =
      (if s.Inf = 0 then iv else if s.Inf ≠ iv then infMinusInf else s.Inf) := by
  unfold add_inf_nan
  dsimp only
  rw [if_pos hm]
  by_cases h0 : s.Inf = 0
  · rw [if_pos h0, if_pos h0]
    exact ⟨rfl, rfl⟩
  · rw [if_neg h0, if_neg h0]
    by_cases h1 : s.Inf ≠ iv
    · rw [if_pos h1, if_pos h1]
      exact ⟨rfl, rfl⟩
    · rw [if_neg h1, if_neg h1]
      exact ⟨rfl, rfl⟩

/-- A special value (exponent field all ones) is routed to the flag
handler without touching the chunks. -/
theorem add_no_carry_special (s : SmallAcc) (x : ℕ)
    (hexp : x / 2 ^ 52 % 2 ^ 11 = XSUM_EXP_MASK) :
    add_no_carry s x = add_inf_nan s (toIvalue x) := by
  unfold add_no_carry
  dsimp only
  rw [if_pos hexp]

/-- The scalar add's flag effect equals the no-carry add's flag effect
on some state with the same flags (the optional propagation preserves
both flags, and the counter decrement touches neither). -/
theorem smallAdd_Inf_NaN (s : SmallAcc) (x : ℕ) :
    ∃ s1 : SmallAcc, s1.Inf = s.Inf ∧ s1.NaN = s.NaN ∧
      (smallAdd s x).Inf = (add_no_carry s1 x).Inf ∧
      (smallAdd s x).NaN = (add_no_carry s1 x).NaN := by
  unfold smallAdd
  dsimp only
  by_cases haup : s.adds_until_propagate = 0
  · rw [if_pos haup]
    exact ⟨(carry_propagate s).1, Inf_carry_propagate s, NaN_carry_propagate s, rfl, rfl⟩
  · rw [if_neg haup]
    exact ⟨s, rfl, rfl, rfl, rfl⟩

theorem smallAdd_flags_finite (s : SmallAcc) (x : ℕ)
    (h : x / 2 ^ 52 % 2 ^ 11 ≠ XSUM_EXP_MASK) :
    (smallAdd s x).Inf = s.Inf ∧ (smallAdd s x).NaN = s.NaN := by
  obtain ⟨s1, hI, hN, hI2, hN2⟩ := smallAdd_Inf_NaN s x
  obtain ⟨hfI, hfN⟩ := flags_add_no_carry_finite s1 x h
  exact ⟨hI2.trans (hfI.trans hI), hN2.trans (hfN.trans hN)⟩

theorem smallAdd_flags_inf (s : SmallAcc) (x : ℕ)
    (hexp : x / 2 ^ 52 % 2 ^ 11 = XSUM_EXP_MASK) (hm : toIvalue x % 2 ^ 52 = 0) :
    (smallAdd s x).NaN = s.NaN ∧
    (smallAdd s x).Inf =
      (if s.Inf = 0 then toIvalue x else if s.Inf ≠ toIvalue x then infMinusInf else s.Inf) := by
  obtain ⟨s1, hI, hN, hI2, hN2⟩ := smallAdd_Inf_NaN s x
  rw [add_no_carry_special s1 x hexp] at hI2 hN2
  obtain ⟨haN, haI⟩ := add_inf_nan_inf s1 (toIvalue x) hm
  rw [hI] at haI
  exact ⟨hN2.trans (haN.trans hN), hI2.trans haI⟩

/-- The sticky-Inf automaton of the source: finite values leave the
word alone; an infinity replaces a clear word, agrees with an equal
word, and turns a disagreeing word into the Inf - Inf quiet NaN. -/
def infFlagStep (c : ℤ) (x : ℕ) : ℤ :=
  if x / 2 ^ 52 % 2 ^ 11 ≠ XSUM_EXP_MASK then c
  else if c = 0 then toIvalue x else if c ≠ toIvalue x then infMinusInf else c

/-- Folding values that are finite or infinities keeps the NaN word
clear and drives the Inf word through the sticky automaton. -/
theorem foldl_smallAdd_Inf : ∀ (v : List ℕ) (s : SmallAcc),
    (∀ x ∈ v, x / 2 ^ 52 % 2 ^ 11 ≠ XSUM_EXP_MASK ∨ toIvalue x % 2 ^ 52 = 0) →
    s.NaN = 0 →
    (List.foldl smallAdd s v).NaN = 0 ∧
    (List.foldl smallAdd s v).Inf = List.foldl infFlagStep s.Inf v := by
  intro v
  induction v with
  | nil =>
    intro s _ hN
    exact ⟨hN, rfl⟩
  | cons x t ih =>
    intro s hv hN
    have hvt : ∀ y ∈ t, y / 2 ^ 52 % 2 ^ 11 ≠ XSUM_EXP_MASK ∨ toIvalue y % 2 ^ 52 = 0 :=
      fun y hy => hv y (List.mem_cons_of_mem x hy)
    show (List.foldl smallAdd (smallAdd s x) t).NaN = 0 ∧
      (List.foldl smallAdd (smallAdd s x) t).Inf = List.foldl infFlagStep (infFlagStep s.Inf x) t
    rcases hv x (List.mem_cons_self x t) with hfin | hm
    · obtain ⟨hI, hN2⟩ := smallAdd_flags_finite s x hfin
      obtain ⟨qN, qI⟩ := ih (smallAdd s x) hvt (hN2.trans hN)
      rw [show infFlagStep s.Inf x = s.Inf from by unfold infFlagStep; rw [if_pos hfin]]
      exact ⟨qN, by rw [qI, hI]⟩
    · by_cases hexp : x / 2 ^ 52 % 2 ^ 11 = XSUM_EXP_MASK
      · obtain ⟨hN2, hI⟩ := smallAdd_flags_inf s x hexp hm
        obtain ⟨qN, qI⟩ := ih (smallAdd s x) hvt (hN2.trans hN)
        refine ⟨qN, ?_⟩
        rw [qI, hI]
        have hstep : infFlagStep s.Inf x =
            (if s.Inf = 0 then toIvalue x else if s.Inf ≠ toIvalue x then infMinusInf else s.Inf) := by
          unfold infFlagStep
          rw [if_neg (fun h => h hexp)]
        rw [hstep]
      · obtain ⟨hI, hN2⟩ := smallAdd_flags_finite s x hexp
        obtain ⟨qN, qI⟩ := ih (smallAdd s x) hvt (hN2.trans hN)
        rw [show infFlagStep s.Inf x = s.Inf from by unfold infFlagStep; rw [if_pos hexp]]
        exact ⟨qN, by rw [qI, hI]⟩

/-- The sticky-Inf automaton reaches the Inf - Inf NaN whenever the
inputs contain both infinities (or started past the point of no
return). -/
theorem infFlag_mixed : ∀ (v : List ℕ) (c : ℤ),
    (∀ x ∈ v, x / 2 ^ 52 % 2 ^ 11 ≠ XSUM_EXP_MASK ∨
      x = 9218868437227405312 ∨ x = 18442240474082181120) →
    (c = infMinusInf ∨
      (c = 9218868437227405312 ∧ 18442240474082181120 ∈ v) ∨
      (c = -4503599627370496 ∧ 9218868437227405312 ∈ v) ∨
      (c = 0 ∧ 9218868437227405312 ∈ v ∧ 18442240474082181120 ∈ v)) →
    List.foldl infFlagStep c v = infMinusInf := by
  intro v
  induction v with
  | nil =>
    intro c _ hc
    rcases hc with h | ⟨_, h⟩ | ⟨_, h⟩ | ⟨_, h, _⟩
    · exact h
    · exact absurd h (List.not_mem_nil _)
    · exact absurd h (List.not_mem_nil _)
    · exact absurd h (List.not_mem_nil _)
  | cons x t ih =>
    intro c hv hc
    have hvt : ∀ y ∈ t, y / 2 ^ 52 % 2 ^ 11 ≠ XSUM_EXP_MASK ∨
        y = 9218868437227405312 ∨ y = 18442240474082181120 :=
      fun y hy => hv y (List.mem_cons_of_mem x hy)
    show List.foldl infFlagStep (infFlagStep c x) t = infMinusInf
    rcases hv x (List.mem_cons_self x t) with hfin | hpx | hmx
    · have hstep : infFlagStep c x = c := by
        unfold infFlagStep
        rw [if_pos hfin]
      rw [hstep]
      apply ih c hvt
      have hxp : (9218868437227405312 : ℕ) ≠ x := by
        intro he
        rw [← he] at hfin
        exact hfin (by decide)
      have hxm : (18442240474082181120 : ℕ) ≠ x := by
        intro he
        rw [← he] at hfin
        exact hfin (by decide)
      rcases hc with h | ⟨h1, h2⟩ | ⟨h1, h2⟩ | ⟨h1, h2, h3⟩
      · exact Or.inl h
      · exact Or.inr (Or.inl ⟨h1, (List.mem_cons.mp h2).resolve_left hxm⟩)
      · exact Or.inr (Or.inr (Or.inl ⟨h1, (List.mem_cons.mp h2).resolve_left hxp⟩))
      · exact Or.inr (Or.inr (Or.inr ⟨h1, (List.mem_cons.mp h2).resolve_left hxp,
          (List.mem_cons.mp h3).resolve_left hxm⟩))
    · subst hpx
      rcases hc with h | ⟨h1, h2⟩ | ⟨h1, h2⟩ | ⟨h1, h2, h3⟩
      · subst h
        rw [show infFlagStep infMinusInf 9218868437227405312 = infMinusInf from by decide]
        exact ih _ hvt (Or.inl rfl)
      · subst h1
        rw [show infFlagStep 9218868437227405312 9218868437227405312 =
          9218868437227405312 from by decide]
        exact ih _ hvt (Or.inr (Or.inl ⟨rfl, (List.mem_cons.mp h2).resolve_left (by decide)⟩))
      · subst h1
        rw [show infFlagStep (-4503599627370496) 9218868437227405312 = infMinusInf from by decide]
        exact ih _ hvt (Or.inl rfl)
      · subst h1
        rw [show infFlagStep 0 9218868437227405312 = 9218868437227405312 from by decide]
        exact ih _ hvt (Or.inr (Or.inl ⟨rfl, (List.mem_cons.mp h3).resolve_left (by decide)⟩))
    · subst hmx
      rcases hc with h | ⟨h1, h2⟩ | ⟨h1, h2⟩ | ⟨h1, h2, h3⟩
      · subst h
        rw [show infFlagStep infMinusInf 18442240474082181120 = infMinusInf from by decide]
        exact ih _ hvt (Or.inl rfl)
      · subst h1
        rw [show infFlagStep 9218868437227405312 18442240474082181120 = infMinusInf from by decide]
        exact ih _ hvt (Or.inl rfl)
      · subst h1
        rw [show infFlagStep (-4503599627370496) 18442240474082181120 =
          -4503599627370496 from by decide]
        exact ih _ hvt (Or.inr (Or.inr (Or.inl ⟨rfl,
          (List.mem_cons.mp h2).resolve_left (by decide)⟩)))
      · subst h1
        rw [show infFlagStep 0 18442240474082181120 = -4503599627370496 from by decide]
        exact ih _ hvt (Or.inr (Or.inr (Or.inl ⟨rfl,
          (List.mem_cons.mp h2).resolve_left (by decide)⟩)))

/-- The sticky-Inf automaton with only +Inf (and finite) inputs ends at
+Inf when at least one +Inf was seen. -/
theorem infFlag_pos : ∀ (v : List ℕ) (c : ℤ),
    (∀ x ∈ v, x / 2 ^ 52 % 2 ^ 11 ≠ XSUM_EXP_MASK ∨ x = 9218868437227405312) →
    (c = 9218868437227405312 ∨ (c = 0 ∧ 9218868437227405312 ∈ v)) →
    List.foldl infFlagStep c v = 9218868437227405312 := by
  intro v
  induction v with
  | nil =>
    intro c _ hc
    rcases hc with h | ⟨_, h⟩
    · exact h
    · exact absurd h (List.not_mem_nil _)
  | cons x t ih =>
    intro c hv hc
    have hvt : ∀ y ∈ t, y / 2 ^ 52 % 2 ^ 11 ≠ XSUM_EXP_MASK ∨ y = 9218868437227405312 :=
      fun y hy => hv y (List.mem_cons_of_mem x hy)
    show List.foldl infFlagStep (infFlagStep c x) t = 9218868437227405312
    rcases hv x (List.mem_cons_self x t) with hfin | hpx
    · have hstep : infFlagStep c x = c := by
        unfold infFlagStep
        rw [if_pos hfin]
      rw [hstep]
      apply ih c hvt
      have hxp : (9218868437227405312 : ℕ) ≠ x := by
        intro he
        rw [← he] at hfin
        exact hfin (by decide)
      rcases hc with h | ⟨h1, h2⟩
      · exact Or.inl h
      · exact Or.inr ⟨h1, (List.mem_cons.mp h2).resolve_left hxp⟩
    · subst hpx
      rcases hc with h | ⟨h1, h2⟩
      · subst h
        rw [show infFlagStep 9218868437227405312 9218868437227405312 =
          9218868437227405312 from by decide]
        exact ih _ hvt (Or.inl rfl)
      · subst h1
        rw [show infFlagStep 0 9218868437227405312 = 9218868437227405312 from by decide]
        exact ih _ hvt (Or.inl rfl)

/-- With a clear NaN word and a set Inf word, `round` returns the Inf
word's bit pattern. -/
theorem small_round_inf (s : SmallAcc) (hN : s.NaN = 0) (hI : s.Inf ≠ 0) :
    small_round s = toBits s.Inf := by
  unfold small_round
  rw [if_neg (fun h => h hN), if_pos hI]

/-- Claim C5: adding both +Inf and -Inf (in any order, interleaved with
any finite values) makes round() return a NaN (concretely the Inf - Inf
quiet NaN 0x7FF8000000000000: exponent field all ones, nonzero
mantissa); adding only +Inf together with any finite values -- even
ones whose naive floating-point sum would overflow -- makes round()
return +Inf (0x7FF0000000000000). -/
theorem claim_C5 :
    (∀ v : List ℕ,
      (∀ x ∈ v, x / 2 ^ 52 % 2 ^ 11 ≠ XSUM_EXP_MASK ∨
        x = 9218868437227405312 ∨ x = 18442240474082181120) →
      9218868437227405312 ∈ v → 18442240474082181120 ∈ v →
      small_round (List.foldl smallAdd smallInit v) / 2 ^ 52 % 2 ^ 11 = XSUM_EXP_MASK ∧
      small_round (List.foldl smallAdd smallInit v) % 2 ^ 52 ≠ 0) ∧
    (∀ v : List ℕ,
      (∀ x ∈ v, x / 2 ^ 52 % 2 ^ 11 ≠ XSUM_EXP_MASK ∨ x = 9218868437227405312) →
      9218868437227405312 ∈ v →
      small_round (List.foldl smallAdd smallInit v) = 9218868437227405312) := by
  constructor
  · intro v hv hp hm
    have hv2 : ∀ x ∈ v, x / 2 ^ 52 % 2 ^ 11 ≠ XSUM_EXP_MASK ∨ toIvalue x % 2 ^ 52 = 0 := by
      intro x hx
      rcases hv x hx with h | h | h
      · exact Or.inl h
      · subst h
        exact Or.inr (by decide)
      · subst h
        exact Or.inr (by decide)
    obtain ⟨qN, qI⟩ := foldl_smallAdd_Inf v smallInit hv2 rfl
    rw [show smallInit.Inf = 0 from rfl] at qI
    rw [infFlag_mixed v 0 hv (Or.inr (Or.inr (Or.inr ⟨rfl, hp, hm⟩)))] at qI
    rw [small_round_inf _ qN (by rw [qI]; decide), qI]
    constructor <;> decide
  · intro v hv hp
    have hv2 : ∀ x ∈ v, x / 2 ^ 52 % 2 ^ 11 ≠ XSUM_EXP_MASK ∨ toIvalue x % 2 ^ 52 = 0 := by
      intro x hx
      rcases hv x hx with h | h
      · exact Or.inl h
      · subst h
        exact Or.inr (by decide)
    obtain ⟨qN, qI⟩ := foldl_smallAdd_Inf v smallInit hv2 rfl
    rw [show smallInit.Inf = 0 from rfl] at qI
    rw [infFlag_pos v 0 hv (Or.inr ⟨rfl, hp⟩)] at qI
    rw [small_round_inf _ qN (by rw [qI]; decide), qI]
    decide

/-- Witness for C5: +Inf, 1.0, -Inf rounds to the quiet NaN, and +Inf
with two copies of the largest finite double rounds to +Inf. -/
theorem claim_C5_witness :
    (small_round (List.foldl smallAdd smallInit
        [9218868437227405312, 4607182418800017408, 18442240474082181120]) / 2 ^ 52 % 2 ^ 11 =
          XSUM_EXP_MASK ∧
      small_round (List.foldl smallAdd smallInit
        [9218868437227405312, 4607182418800017408, 18442240474082181120]) % 2 ^ 52 ≠ 0) ∧
    small_round (List.foldl smallAdd smallInit
      [9218868437227405312, 9218868437227405311, 9218868437227405311]) = 9218868437227405312 :=
  ⟨claim_C5.1 [9218868437227405312, 4607182418800017408, 18442240474082181120]
      (by decide) (by decide) (by decide),
   claim_C5.2 [9218868437227405312, 9218868437227405311, 9218868437227405311]
      (by decide) (by decide)⟩

end Xsum
